import Mathlib

/-!
# Verification of the iptree counter (src/src/iptree.h)

A shallow embedding of the memory-bounded binary trie counter of
`iptree.h`, together with proofs about its specification claims.

Conventions of the embedding:
* `TYPE` (the weight type, `uint64_t` in the instantiations) is modelled
  as `Nat`, following the spec's data model ("a non-negative additive
  integer; orderable; has zero").  `size_t` counters are likewise `Nat`.
* Addresses are byte buffers, modelled as `List Nat`; reading past the
  end of a buffer yields `0` (`List.getD`).
* A tree node is identified by its bit path from the root; this is sound
  because nodes are never moved, only created at the end of a fresh path
  and deleted by pruning.  Cache slots therefore store a path in place of
  the C node pointer.
* The null-pointer dereference that `node::best_to_prune` performs on a
  childless non-terminal node (line 150 of iptree.h reads `ptr0->term()`
  with `ptr0 == NULL`) is modelled as `Except.error ()`.
-/

/-- A trie node: `tsum` (the node's own accumulated weight) and the two
optional children, exactly the fields of `iptreet::node` that determine
counting behaviour (`parent` and `dirty` have no read-side consumer). -/
inductive Node : Type where
  | mk (tsum : Nat) (ptr0 : Option Node) (ptr1 : Option Node)

/-- `node::nodesum()`: the sum of just the node. -/
def Node.nodesum : Node → Nat
  | .mk t _ _ => t

/-- `node::term()`: a node is terminal if `tsum > 0` and both ptrs are 0. -/
def Node.term : Node → Bool
  | .mk t none none => decide (0 < t)
  | _ => false

/-- `node::children()`. -/
def Node.children : Node → Nat
  | .mk _ c0 c1 => (if c0.isSome then 1 else 0) + (if c1.isSome then 1 else 0)

/-- `node::sum()`: the sum of this node and its children. -/
def Node.sum : Node → Nat
  | .mk t none none => t
  | .mk t (some a) none => t + a.sum
  | .mk t none (some b) => t + b.sum
  | .mk t (some a) (some b) => t + a.sum + b.sum

/-- Follow a bit path from a node (`false` = ptr0, `true` = ptr1). -/
def Node.find : Node → List Bool → Option Node
  | n, [] => some n
  | .mk _ c0 _, false :: p => match c0 with
      | some a => a.find p
      | none => none
  | .mk _ _ c1, true :: p => match c1 with
      | some b => b.find p
      | none => none

/-- Number of nodes of the subtree, this node included. -/
def Node.count : Node → Nat
  | .mk _ none none => 1
  | .mk _ (some a) none => 1 + a.count
  | .mk _ none (some b) => 1 + b.count
  | .mk _ (some a) (some b) => 1 + a.count + b.count

/-- Height of the subtree (a childless node has height 0). -/
def Node.height : Node → Nat
  | .mk _ none none => 0
  | .mk _ (some a) none => a.height + 1
  | .mk _ none (some b) => b.height + 1
  | .mk _ (some a) (some b) => max a.height b.height + 1

/-- Well-formedness of the reachable tree shapes: every childless node
carries a positive `tsum`.  (`add` with a positive weight establishes
this on each node it leaves childless, and pruning folds a positive
terminal `tsum` into the collapsed node.) -/
def Node.allWf : Node → Bool
  | .mk t none none => decide (0 < t)
  | .mk _ (some a) none => a.allWf
  | .mk _ none (some b) => b.allWf
  | .mk _ (some a) (some b) => a.allWf && b.allWf

/-- A prune candidate: an interior node all of whose present children
are terminal (the nodes `node::best_to_prune` may legally return). -/
def Node.isCandidate : Node → Bool
  | .mk _ none none => false
  | .mk _ (some a) none => a.term
  | .mk _ none (some b) => b.term
  | .mk _ (some a) (some b) => a.term && b.term

/-!
## Address bytes

`iptreet::bit`: the ith bit of an address, bit 0 being the MSB of
byte 0.  The C source reads `addr[i/8] & (1 << ((7-i)&7))`; since `i` is
unsigned, `(7-i)&7` is `7 - i % 8`.
-/

/-- `iptreet::bit(addr,i)`. -/
def bit (addr : List Nat) (i : Nat) : Bool :=
  Nat.testBit (addr.getD (i / 8) 0) (7 - i % 8)

/-- `iptreet::setbit(addr,i)`: set the ith bit to 1. -/
def setbit (addr : List Nat) (i : Nat) : List Nat :=
  addr.set (i / 8) ((addr.getD (i / 8) 0) ||| (1 <<< (7 - i % 8)))

/-- The bit path of the first `k` bits of an address. -/
def bitPath (addr : List Nat) (k : Nat) : List Bool :=
  (List.range k).map (bit addr)

/-!
## The descent loop of `iptreet::add`

`walkAdd n path v` performs the loop of `iptreet::add` below node `n`:
descend along `path`, creating a fresh zero node (`new node(ptr)`) for
every missing child, and increment the node at the end of the path by
`v`.  It returns the rebuilt subtree together with the number of nodes
created (the C code increments `nodes` and `ctr_added` per creation).
-/
def walkAdd : Node → List Bool → Nat → Node × Nat
  | .mk t c0 c1, [], v => (.mk (t + v) c0 c1, 0)
  | .mk t c0 c1, false :: p, v =>
      match c0 with
      | some a => let r := walkAdd a p v; (.mk t (some r.1) c1, r.2)
      | none => let r := walkAdd (.mk 0 none none) p v; (.mk t (some r.1) c1, r.2 + 1)
  | .mk t c0 c1, true :: p, v =>
      match c1 with
      | some b => let r := walkAdd b p v; (.mk t c0 (some r.1), r.2)
      | none => let r := walkAdd (.mk 0 none none) p v; (.mk t c0 (some r.1), r.2 + 1)

/-- `cache[i].ptr->add(val)`: increment the node at an existing path
(the cache-hit shortcut).  A dangling path leaves the tree unchanged;
the cache coherence invariant shows this case is never exercised. -/
def incrAt : Node → List Bool → Nat → Node
  | .mk t c0 c1, [], v => .mk (t + v) c0 c1
  | .mk t c0 c1, false :: p, v =>
      match c0 with
      | some a => .mk t (some (incrAt a p v)) c1
      | none => .mk t c0 c1
  | .mk t c0 c1, true :: p, v =>
      match c1 with
      | some b => .mk t c0 (some (incrAt b p v))
      | none => .mk t c0 c1

/-- Subtree sum of the node at a path (0 if the path dangles). -/
def sumAt (n : Node) (p : List Bool) : Nat :=
  match n.find p with
  | some m => m.sum
  | none => 0

/-!
## The prune selector, `node::best_to_prune`

Translated case by case from iptree.h lines 142-166.  The result is the
path (from the argument node) of the chosen node together with its
depth.  Reaching the final cases with both children absent dereferences
the null `ptr0` in C (line 150); this is `Except.error ()`.
-/
def bestToPrune : Node → Nat → Except Unit (List Bool × Nat)
  | .mk _ none none, _ => .error ()
  | .mk _ (some a) none, d =>
      if a.term then .ok ([], d)                        -- case 2
      else match bestToPrune a (d + 1) with             -- case 3
           | .error e => .error e
           | .ok (p, dep) => .ok (false :: p, dep)
  | .mk _ none (some b), d =>
      if b.term then .ok ([], d)                        -- case 2
      else match bestToPrune b (d + 1) with             -- case 3
           | .error e => .error e
           | .ok (p, dep) => .ok (true :: p, dep)
  | .mk _ (some a) (some b), d =>
      if a.term && b.term then .ok ([], d)              -- case 2
      else if a.term then                               -- case 4
        match bestToPrune b (d + 1) with
        | .error e => .error e
        | .ok (p, dep) => .ok (true :: p, dep)
      else if b.term then                               -- case 4
        match bestToPrune a (d + 1) with
        | .error e => .error e
        | .ok (p, dep) => .ok (false :: p, dep)
      else                                              -- case 5
        match bestToPrune a (d + 1), bestToPrune b (d + 1) with
        | .error e, _ => .error e
        | _, .error e => .error e
        | .ok (p0, d0), .ok (p1, d1) =>
            let s0 := sumAt a p0
            let s1 := sumAt b p1
            if s0 < s1 then .ok (false :: p0, d0)
            else if s1 < s0 then .ok (true :: p1, d1)
            else if d0 > d1 then .ok (false :: p0, d0)
            else .ok (true :: p1, d1)

/-!
## `node::prune`

Collapsing a node folds each present child's `tsum` into the node and
deletes the child.  `collapseNode` returns the new node and the sides
deleted (in the order the C code deletes them: ptr0 first).
-/
def collapseNode : Node → Node × List Bool
  | .mk t c0 c1 =>
      let s0 := match c0 with | some a => a.nodesum | none => 0
      let d0 : List Bool := match c0 with | some _ => [false] | none => []
      let s1 := match c1 with | some b => b.nodesum | none => 0
      let d1 : List Bool := match c1 with | some _ => [true] | none => []
      (.mk (t + s0 + s1) none none, d0 ++ d1)

/-- Prune the node at a path: collapse it and report the absolute paths
of the deleted children. -/
def pruneAt : Node → List Bool → Node × List (List Bool)
  | n, [] => let r := collapseNode n; (r.1, r.2.map (fun s => [s]))
  | .mk t c0 c1, false :: p =>
      match c0 with
      | some a => let r := pruneAt a p; (.mk t (some r.1) c1, r.2.map (fun q => false :: q))
      | none => (.mk t c0 c1, [])
  | .mk t c0 c1, true :: p =>
      match c1 with
      | some b => let r := pruneAt b p; (.mk t c0 (some r.1), r.2.map (fun q => true :: q))
      | none => (.mk t c0 c1, [])


/-!
## The tree state and the insertion-path cache

`iptreet<TYPE,ADDRBYTES>` owns the root, the node/statistics counters
and the 4-slot cache.  A cache slot stores `ADDRBYTES` key bytes and the
cached node, the latter represented by its bit path from the root.
-/

/-- `iptreet::cache_element`. -/
structure CacheEl where
  addr : List Nat
  ptr : Option (List Bool)
deriving DecidableEq

/-- The `iptreet` object.  `addrbytes` is the `ADDRBYTES` template
parameter. -/
structure IPT where
  root : Node
  nodes : Nat
  maxnodes : Nat
  addrbytes : Nat
  cache : List CacheEl
  cachenext : Nat
  ctr_added : Nat
  pruned : Nat
  cache_hits : Nat
  cache_misses : Nat

/-- The `iptreet(int maxnodes_)` constructor: an empty root and
`cache_size = 4` empty slots (`cache_element(0,0,0)` zero-fills the key
bytes and stores a null pointer). -/
def iptInit (ab maxn : Nat) : IPT :=
  { root := .mk 0 none none
    nodes := 0
    maxnodes := maxn
    addrbytes := ab
    cache := List.replicate 4 ⟨List.replicate ab 0, none⟩
    cachenext := 0
    ctr_added := 0
    pruned := 0
    cache_hits := 0
    cache_misses := 0 }

/-- `iptreet::cache_search`, returning the matching slot rather than its
index (`memcmp(cache[i].addr, addr, addrlen) == 0` compares the first
`addrlen` key bytes; slots with a null `ptr` never match). -/
def cacheSearch : List CacheEl → List Nat → Nat → Option CacheEl
  | [], _, _ => none
  | e :: rest, q, len =>
      if e.ptr.isSome && decide (e.addr.take len = q.take len) then some e
      else cacheSearch rest q len

/-- `iptreet::cache_remove`: clear the first slot holding this node. -/
def cacheRemove : List CacheEl → List Bool → List CacheEl
  | [], _ => []
  | e :: rest, p =>
      if e.ptr = some p then { e with ptr := none } :: rest
      else e :: cacheRemove rest p

/-- `iptreet::cache_replace`: advance `cachenext` round-robin and
overwrite that slot (`memcpy` overwrites only the first `addrlen` key
bytes, the tail keeps the slot's previous bytes). -/
def cacheReplace (st : IPT) (q : List Nat) (len : Nat) (p : List Bool) : IPT :=
  let next := if st.cachenext + 1 ≥ st.cache.length then 0 else st.cachenext + 1
  let old := st.cache.getD next ⟨[], none⟩
  { st with
    cache := st.cache.set next ⟨q.take len ++ old.addr.drop len, some p⟩
    cachenext := next }

/-- `iptreet::prune()`: locate the best node and collapse it, removing
the deleted children from the cache (ptr0 first, as in `node::prune`).
Returns the C return value (0 when the root is terminal, else 1). -/
def pruneStep (st : IPT) : Except Unit (IPT × Nat) :=
  if st.root.term then .ok (st, 0)
  else
    match bestToPrune st.root 0 with
    | .error e => .error e
    | .ok pd =>
        let r := pruneAt st.root pd.1
        .ok ({ st with
               root := r.1
               nodes := st.nodes - r.2.length
               pruned := st.pruned + r.2.length
               cache := r.2.foldl (fun c p => cacheRemove c p) st.cache }, 1)

/-- The loop body of `prune_if_greater`:
`while (nodes > maxnodes*9/10) { if (prune()==0) break; }`.
The fuel argument only bounds the iteration count; `st.nodes + 1` is
always sufficient because every non-zero `prune()` removes a node. -/
def pruneLoop : Nat → IPT → Except Unit IPT
  | 0, st => .ok st
  | f + 1, st =>
      if st.maxnodes * 9 / 10 < st.nodes then
        match pruneStep st with
        | .error e => .error e
        | .ok (st1, r) => if r = 0 then .ok st1 else pruneLoop f st1
      else .ok st

/-- `iptreet::prune_if_greater(size_t limit)`.  Note that the source
ignores `limit` entirely: both the entry test and the loop bound read
`maxnodes`. -/
def pruneIfGreaterOp (st : IPT) (limit : Nat) : Except Unit IPT :=
  if st.maxnodes ≤ st.nodes then pruneLoop (st.nodes + 1) st else .ok st

/-- `iptreet::add(addr, addrlen, val)`: prune if over the limit, clamp
the length, consult the cache (hit: bump the cached node), else walk the
address bits from the root and record the final node in the cache. -/
def addOp (st : IPT) (addr : List Nat) (addrlen : Nat) (val : Nat) : Except Unit IPT :=
  match pruneIfGreaterOp st st.maxnodes with
  | .error e => .error e
  | .ok st1 =>
      let len := if addrlen > st1.addrbytes then st1.addrbytes else addrlen
      match cacheSearch st1.cache addr len with
      | some e =>
          let st2 := { st1 with cache_hits := st1.cache_hits + 1 }
          .ok { st2 with root := incrAt st2.root (e.ptr.getD []) val }
      | none =>
          let st2 := { st1 with cache_misses := st1.cache_misses + 1 }
          let path := bitPath addr (len * 8)
          let r := walkAdd st2.root path val
          let st3 := { st2 with
                       root := r.1
                       nodes := st2.nodes + r.2
                       ctr_added := st2.ctr_added + r.2 }
          .ok (cacheReplace st3 addr len path)

/-- Modelled from the spec: the zero-capacity-cache variant of `add`
("a zero-capacity cache must yield identical counts", "every lookup a
miss").  Identical to `addOp` except that the lookup always misses and
nothing is stored. -/
def addNC (st : IPT) (addr : List Nat) (addrlen : Nat) (val : Nat) : Except Unit IPT :=
  match pruneIfGreaterOp st st.maxnodes with
  | .error e => .error e
  | .ok st1 =>
      let len := if addrlen > st1.addrbytes then st1.addrbytes else addrlen
      let st2 := { st1 with cache_misses := st1.cache_misses + 1 }
      let path := bitPath addr (len * 8)
      let r := walkAdd st2.root path val
      .ok { st2 with
            root := r.1
            nodes := st2.nodes + r.2
            ctr_added := st2.ctr_added + r.2 }

/-!
## Operation sequences
-/


/-- A public-interface call on the tree. -/
inductive Op where
  | add (addr : List Nat) (addrlen : Nat) (val : Nat)
  | prune
  | pruneIfGreater (limit : Nat)

/-- Execute one call (with the 4-slot cache). -/
def runOp (st : IPT) : Op → Except Unit IPT
  | .add a l v => addOp st a l v
  | .prune => (pruneStep st).map (fun r => r.1)
  | .pruneIfGreater l => pruneIfGreaterOp st l

/-- Execute a call sequence (with the 4-slot cache). -/
def run : IPT → List Op → Except Unit IPT
  | st, [] => .ok st
  | st, op :: ops =>
      match runOp st op with
      | .error e => .error e
      | .ok st1 => run st1 ops

/-- Execute one call with the zero-capacity cache. -/
def runOpNC (st : IPT) : Op → Except Unit IPT
  | .add a l v => addNC st a l v
  | .prune => (pruneStep st).map (fun r => r.1)
  | .pruneIfGreater l => pruneIfGreaterOp st l

/-- Execute a call sequence with the zero-capacity cache. -/
def runNC : IPT → List Op → Except Unit IPT
  | st, [] => .ok st
  | st, op :: ops =>
      match runOpNC st op with
      | .error e => .error e
      | .ok st1 => runNC st1 ops

/-- The weight an operation feeds into the tree. -/
def opWeight : Op → Nat
  | .add _ _ v => v
  | _ => 0

/-!
## Histogram (`iptreet::get_histogram`)
-/

/-- `iptreet::addr_elem`: one histogram entry. -/
structure AddrElem where
  addr : List Nat
  depth : Nat
  count : Nat
deriving DecidableEq

/-- `max_histogram_depth` from the `enum` of `iptreet`. -/
def max_histogram_depth : Nat := 128

/-- The recursive `get_histogram(depth, addr, ptr, histogram)`: push an
entry for every visited node with a nonzero `nodesum`, stop descending
once `depth > max_histogram_depth`, and recurse with the address
extended by a 0 and by a 1 bit (the C code zero-fills a fresh
`ADDRBYTES` buffer and copies the first `(depth+7)/8` bytes).  The
source's two inline null checks on `ptr0`/`ptr1` are case-expanded into
the four constructor patterns; in the childless case the depth test has
no effect and is omitted. -/
def getHist (ab : Nat) : Nat → List Nat → Node → List AddrElem → List AddrElem
  | depth, addr, .mk t none none, hist =>
      if t ≠ 0 then hist ++ [⟨addr, depth, t⟩] else hist
  | depth, addr, .mk t (some a) none, hist =>
      let hist1 := if t ≠ 0 then hist ++ [⟨addr, depth, t⟩] else hist
      if depth > max_histogram_depth then hist1
      else
        let base := addr.take ((depth + 7) / 8) ++
                    List.replicate (ab - (depth + 7) / 8) 0
        getHist ab (depth + 1) base a hist1
  | depth, addr, .mk t none (some b), hist =>
      let hist1 := if t ≠ 0 then hist ++ [⟨addr, depth, t⟩] else hist
      if depth > max_histogram_depth then hist1
      else
        let base := addr.take ((depth + 7) / 8) ++
                    List.replicate (ab - (depth + 7) / 8) 0
        getHist ab (depth + 1) (setbit base depth) b hist1
  | depth, addr, .mk t (some a) (some b), hist =>
      let hist1 := if t ≠ 0 then hist ++ [⟨addr, depth, t⟩] else hist
      if depth > max_histogram_depth then hist1
      else
        let base := addr.take ((depth + 7) / 8) ++
                    List.replicate (ab - (depth + 7) / 8) 0
        let hist2 := getHist ab (depth + 1) base a hist1
        getHist ab (depth + 1) (setbit base depth) b hist2

/-- The public `get_histogram(histogram)` entry point. -/
def getHistogram (ab : Nat) (n : Node) : List AddrElem :=
  getHist ab 0 (List.replicate ab 0) n []

/-- Total of the `count` fields of a histogram. -/
def histSum (h : List AddrElem) : Nat :=
  (h.map AddrElem.count).sum

/-!
## Textual rendering (`iptreet::ipstr` and friends)
-/

/-- `ipv4_bits` / `ipv6_bits` from the `enum` of `iptreet`. -/
def ipv4_bits : Nat := 32

def ipv6_bits : Nat := 128

/-- `iptreet::itos` (`snprintf("%d")`). -/
def itos (n : Nat) : String := toString n

/-- `iptreet::isipv4`: true iff `addrlen == 4` or bytes 4..addrlen-1 are
all zero. -/
def isipv4 (addr : List Nat) (addrlen : Nat) : Bool :=
  if addrlen = 4 then true
  else ((List.range addrlen).drop 4).all (fun i => addr.getD i 0 == 0)

/-- `iptreet::ipv4`: dotted decimal of the first four bytes. -/
def ipv4 (a : List Nat) : String :=
  toString (a.getD 0 0) ++ "." ++ toString (a.getD 1 0) ++ "." ++
  toString (a.getD 2 0) ++ "." ++ toString (a.getD 3 0)

/-- Modelled from the spec: `iptreet::ipv6` calls libc's `inet_ntop`,
which is not part of this repository; the spec only requires "standard
colon-hex notation".  Rendered as eight colon-separated hex groups
(zero-run compression is immaterial to every claim below, which concern
only the `"/depth"` suffix logic of `ipstr`). -/
def ipv6 (a : List Nat) : String :=
  String.intercalate ":"
    (((List.range 8).map
      (fun i => Nat.toDigits 16 (a.getD (2 * i) 0 * 256 + a.getD (2 * i + 1) 0))).map
      (fun l => String.mk l))

/-- `iptreet::ipstr(addr, addrlen, depth)`: render the address and
append `"/depth"` when the depth is strictly below the family's full
width. -/
def ipstr (addr : List Nat) (addrlen : Nat) (depth : Nat) : String :=
  if isipv4 addr addrlen then
    ipv4 addr ++ (if depth < ipv4_bits then "/" ++ itos depth else "")
  else
    ipv6 addr ++ (if depth < ipv6_bits then "/" ++ itos depth else "")

/-!
## The pair tree (`ip2tree`)
-/

/-- The interleaving loop of `ip2tree::add_pair`: bit `2i` of the output
buffer is bit `i` of `addr1`, bit `2i+1` is bit `i` of `addr2`, for
`i < addrlen*8`, over a zero-filled 32-byte buffer. -/
def interleave (addr1 addr2 : List Nat) (addrlen : Nat) : List Nat :=
  (List.range (addrlen * 8)).foldl
    (fun buf i =>
      let b1 := if bit addr1 i then setbit buf (2 * i) else buf
      if bit addr2 i then setbit b1 (2 * i + 1) else b1)
    (List.replicate 32 0)

/-- `ip2tree::un_pair` as used by `ip2str`: de-interleave `addr` (of
`addrlen` bytes) into two zero-filled 16-byte buffers, reading bit `2i`
into `addr1` and bit `2i+1` into `addr2` for `i < addrlen*8/2`. -/
def unPair (addr : List Nat) (addrlen : Nat) : List Nat × List Nat :=
  (List.range (addrlen * 8 / 2)).foldl
    (fun bufs i =>
      let b1 := if bit addr (2 * i) then setbit bufs.1 i else bufs.1
      let b2 := if bit addr (2 * i + 1) then setbit bufs.2 i else bufs.2
      (b1, b2))
    (List.replicate 16 0, List.replicate 16 0)

/-- The depth split of `ip2tree::un_pair`:
`*depth1 = (depth+1)/2; *depth2 = depth/2`. -/
def unPairDepths (depth : Nat) : Nat × Nat :=
  ((depth + 1) / 2, depth / 2)

/-- `ip2tree::add_pair(addr1, addr2, addrlen, val)`: interleave and add
with `2*addrlen` bytes. -/
def addPair (st : IPT) (addr1 addr2 : List Nat) (addrlen : Nat) (val : Nat) :
    Except Unit IPT :=
  addOp st (interleave addr1 addr2 addrlen) (addrlen * 2) val

/-- `Except` result observable used by concrete statements. -/
def isOkB : Except Unit IPT → Bool
  | .ok _ => true
  | .error _ => false

/-!
## Invariants and observables
-/

/-- The paths of the occupied cache slots. -/
def occPaths (c : List CacheEl) : List (List Bool) :=
  c.filterMap CacheEl.ptr

/-- Coherence of the insertion-path cache: occupied slots hold pairwise
distinct node paths; every slot stores an `ADDRBYTES`-byte key; and an
occupied slot's path is the bit path of its key bytes and leads to a
live node. -/
def CacheWF (ab : Nat) (root : Node) (c : List CacheEl) : Prop :=
  (occPaths c).Nodup ∧
  (∀ e ∈ c, e.addr.length = ab ∧ ∀ x ∈ e.addr, x < 256) ∧
  (∀ e ∈ c, ∀ p, e.ptr = some p →
    p = bitPath e.addr p.length ∧ (root.find p).isSome = true)
/-- The well-formed tree shapes reachable with positive weights: either
`allWf`, or the untouched fresh tree. -/
def WfDisj (st : IPT) : Prop :=
  st.root.allWf = true ∨ (st.root = Node.mk 0 none none ∧ st.nodes = 0)
/-- The caller-side contract of `add`: `addr` really is a byte buffer
(each value fits in `uint8_t`) holding at least the clamped number of
key bytes the C code reads via `memcmp`/`memcpy`. -/
def ValidOp (ab : Nat) : Op → Prop
  | .add a l _ => (∀ x ∈ a, x < 256) ∧ min l ab ≤ a.length
  | _ => True

/-- Positive weights (`add` is used with packet or byte tallies). -/
def PosW : Op → Prop
  | .add _ _ v => 0 < v
  | _ => True
/-- Observables of a run result, used by the concrete statements. -/
def nodesOf : Except Unit IPT → Option Nat
  | .ok st => some st.nodes
  | .error _ => none

def rootSumOf : Except Unit IPT → Option Nat
  | .ok st => some st.root.sum
  | .error _ => none

def rootNodesumOf : Except Unit IPT → Option Nat
  | .ok st => some st.root.nodesum
  | .error _ => none

/-- `tsum` of the node at a path of the result's tree. -/
def nodesumAtOf (p : List Bool) : Except Unit IPT → Option Nat
  | .ok st => (st.root.find p).map Node.nodesum
  | .error _ => none

/-- Number of children of the node at a path of the result's tree. -/
def childrenAtOf (p : List Bool) : Except Unit IPT → Option Nat
  | .ok st => (st.root.find p).map Node.children
  | .error _ => none

/-- Whether some node of the result's tree has the given `tsum`. -/
def hasTsum : Node → Nat → Bool
  | .mk t none none, k => t == k
  | .mk t (some a) none, k => t == k || hasTsum a k
  | .mk t none (some b), k => t == k || hasTsum b k
  | .mk t (some a) (some b), k => t == k || hasTsum a k || hasTsum b k

def hasTsumOf (k : Nat) : Except Unit IPT → Bool
  | .ok st => hasTsum st.root k
  | .error _ => false

/-- Histogram count total of the result's tree. -/
def histSumOf (ab : Nat) : Except Unit IPT → Option Nat
  | .ok st => some (histSum (getHistogram ab st.root))
  | .error _ => none
def countInvOf : Except Unit IPT → Bool
  | .ok st => st.root.count == st.nodes + 1
  | .error _ => false

def allWfOf : Except Unit IPT → Bool
  | .ok st => st.root.allWf
  | .error _ => false
/-- The part of the subtree sum that `get_histogram` can see when it
reaches the node at depth `d`: the recursion stops descending once the
depth exceeds `max_histogram_depth`. -/
def clipSum (d : Nat) : Node → Nat
  | .mk t none none => t
  | .mk t (some a) none =>
      t + (if d > max_histogram_depth then 0 else clipSum (d + 1) a)
  | .mk t none (some b) =>
      t + (if d > max_histogram_depth then 0 else clipSum (d + 1) b)
  | .mk t (some a) (some b) =>
      t + (if d > max_histogram_depth then 0
           else clipSum (d + 1) a + clipSum (d + 1) b)
def rootTermOf : Except Unit IPT → Bool
  | .ok st => st.root.term
  | .error _ => true
/-- The run result's tree, as an observable. -/
def rootOf : Except Unit IPT → Option Node
  | .ok st => some st.root
  | .error _ => none

/-- All adds of a call sequence use one address length. -/
def OpLen (L : Nat) : Op → Prop
  | .add _ l _ => l = L
  | _ => True

/-- Every occupied cache slot holds a path of bit length `w`. -/
def CacheLenOK (w : Nat) (c : List CacheEl) : Prop :=
  ∀ e ∈ c, ∀ p, e.ptr = some p → p.length = w

/-- Coupling invariant between the cached machine (`stC`) and the
zero-capacity-cache machine (`stN`): the trees and node counts agree,
the cached machine's counters are coherent, and every occupied slot
holds a path of the single clamped bit length in use. -/
def Coupled (w : Nat) (stC stN : IPT) : Prop :=
  stC.root = stN.root ∧ stC.nodes = stN.nodes ∧ stC.maxnodes = stN.maxnodes ∧
  stC.addrbytes = stN.addrbytes ∧
  stC.root.count = stC.nodes + 1 ∧
  CacheWF stC.addrbytes stC.root stC.cache ∧
  CacheLenOK w stC.cache
/-- The clamped bit length an `add` call walks. -/
def OpLenBits (w ab : Nat) : Op → Prop
  | .add _ l _ => (if l > ab then ab else l) * 8 = w
  | _ => True

/-!
## Basic lemmas about the node functions
-/

/-- Sum of an optional subtree. -/
def osum : Option Node → Nat
  | none => 0
  | some n => n.sum

/-- Count of an optional subtree. -/
def ocount : Option Node → Nat
  | none => 0
  | some n => n.count

theorem sum_mk (t : Nat) (c0 c1 : Option Node) :
    (Node.mk t c0 c1).sum = t + osum c0 + osum c1 := by
  cases c0 <;> cases c1 <;> simp [Node.sum, osum]

theorem count_mk (t : Nat) (c0 c1 : Option Node) :
    (Node.mk t c0 c1).count = 1 + ocount c0 + ocount c1 := by
  cases c0 <;> cases c1 <;> simp [Node.count, ocount]

theorem count_pos (n : Node) : 1 ≤ n.count := by
  cases n with
  | mk t c0 c1 => rw [count_mk]; omega

theorem term_mk (t : Nat) (c0 c1 : Option Node) :
    (Node.mk t c0 c1).term = (decide (0 < t) && c0.isNone && c1.isNone) := by
  cases c0 <;> cases c1 <;> simp [Node.term]

theorem term_children (n : Node) (h : n.term = true) :
    ∃ t, n = .mk t none none ∧ 0 < t := by
  cases n with
  | mk t c0 c1 =>
      rw [term_mk] at h
      cases c0 <;> cases c1 <;> simp_all

theorem term_count (n : Node) (h : n.term = true) : n.count = 1 := by
  obtain ⟨t, rfl, -⟩ := term_children n h
  simp [Node.count]

theorem term_sum (n : Node) (h : n.term = true) : n.sum = n.nodesum := by
  obtain ⟨t, rfl, -⟩ := term_children n h
  simp [Node.sum, Node.nodesum]

theorem term_nodesum_pos (n : Node) (h : n.term = true) : 0 < n.nodesum := by
  obtain ⟨t, rfl, ht⟩ := term_children n h
  simpa [Node.nodesum] using ht

/-- No node strictly below a terminal node, and a terminal node is not a
candidate: terminal subtrees contain no candidate at all. -/
theorem term_no_candidate (n : Node) (h : n.term = true) (q : List Bool)
    (m : Node) (hf : n.find q = some m) : m.isCandidate = false := by
  obtain ⟨t, rfl, -⟩ := term_children n h
  cases q with
  | nil => simp [Node.find] at hf; subst hf; simp [Node.isCandidate]
  | cons b q' => cases b <;> simp [Node.find] at hf

theorem find_nil (n : Node) : n.find [] = some n := by
  cases n with
  | mk t c0 c1 => simp [Node.find]

theorem find_cons_false (t : Nat) (c0 c1 : Option Node) (p : List Bool) :
    (Node.mk t c0 c1).find (false :: p) =
      (match c0 with | some a => a.find p | none => none) := by
  cases c0 <;> simp [Node.find]

theorem find_cons_true (t : Nat) (c0 c1 : Option Node) (p : List Bool) :
    (Node.mk t c0 c1).find (true :: p) =
      (match c1 with | some b => b.find p | none => none) := by
  cases c1 <;> simp [Node.find]

theorem sumAt_nil (n : Node) : sumAt n [] = n.sum := by
  unfold sumAt; rw [find_nil]

theorem sumAt_cons_false (t : Nat) (a : Node) (c1 : Option Node) (p : List Bool) :
    sumAt (Node.mk t (some a) c1) (false :: p) = sumAt a p := by
  unfold sumAt; rw [find_cons_false]

theorem sumAt_cons_true (t : Nat) (c0 : Option Node) (b : Node) (p : List Bool) :
    sumAt (Node.mk t c0 (some b)) (true :: p) = sumAt b p := by
  unfold sumAt; rw [find_cons_true]

theorem sumAt_eq_sum (n : Node) (p : List Bool) (m : Node) (h : n.find p = some m) :
    sumAt n p = m.sum := by
  unfold sumAt; rw [h]

/-!
## Lemmas about the descent loop (`walkAdd`, `incrAt`)
-/

theorem walkAdd_sum (p : List Bool) : ∀ (n : Node) (v : Nat),
    ((walkAdd n p v).1).sum = n.sum + v := by
  induction p with
  | nil =>
      intro n v
      cases n with
      | mk t c0 c1 => simp [walkAdd, sum_mk]; omega
  | cons b p ih =>
      intro n v
      cases n with
      | mk t c0 c1 =>
          cases b <;> cases c0 <;> cases c1 <;>
            simp [walkAdd, sum_mk, osum, ih] <;> omega

theorem walkAdd_count (p : List Bool) : ∀ (n : Node) (v : Nat),
    ((walkAdd n p v).1).count = n.count + (walkAdd n p v).2 := by
  induction p with
  | nil =>
      intro n v
      cases n with
      | mk t c0 c1 => simp [walkAdd, count_mk]
  | cons b p ih =>
      intro n v
      cases n with
      | mk t c0 c1 =>
          cases b <;> cases c0 <;> cases c1 <;>
            simp [walkAdd, count_mk, ocount, ih] <;> omega

theorem walkAdd_keeps (p : List Bool) : ∀ (n : Node) (v : Nat) (q : List Bool),
    (n.find q).isSome = true → (((walkAdd n p v).1).find q).isSome = true := by
  induction p with
  | nil =>
      intro n v q h
      cases n with
      | mk t c0 c1 =>
          cases q with
          | nil => simp [walkAdd, find_nil]
          | cons b q' =>
              cases b <;> simp only [walkAdd] <;>
                simp only [find_cons_false, find_cons_true] at h ⊢ <;> exact h
  | cons b p ih =>
      intro n v q h
      cases n with
      | mk t c0 c1 =>
          cases q with
          | nil => simp [find_nil]
          | cons bq q' =>
              cases b <;> cases bq <;> cases c0 <;> cases c1 <;>
                simp only [walkAdd] <;>
                simp only [find_cons_false, find_cons_true] at h ⊢ <;>
                first
                  | exact h
                  | exact ih _ v q' h
                  | simp at h

theorem walkAdd_self (p : List Bool) : ∀ (n : Node) (v : Nat),
    (((walkAdd n p v).1).find p).isSome = true := by
  induction p with
  | nil =>
      intro n v
      cases n with
      | mk t c0 c1 => simp [walkAdd, find_nil]
  | cons b p ih =>
      intro n v
      cases n with
      | mk t c0 c1 =>
          cases b <;> cases c0 <;> cases c1 <;>
            simp only [walkAdd] <;>
            simp only [find_cons_false, find_cons_true] <;>
            exact ih _ v

theorem walkAdd_exists_eq_incrAt (p : List Bool) : ∀ (n : Node) (v : Nat),
    (n.find p).isSome = true → walkAdd n p v = (incrAt n p v, 0) := by
  induction p with
  | nil =>
      intro n v _
      cases n with
      | mk t c0 c1 => simp [walkAdd, incrAt]
  | cons b p ih =>
      intro n v h
      cases n with
      | mk t c0 c1 =>
          cases b <;> cases c0 <;> cases c1 <;>
            simp only [find_cons_false, find_cons_true] at h <;>
            first
              | simp at h
              | (simp only [walkAdd, incrAt]; rw [ih _ v h])

theorem incrAt_keeps (p : List Bool) : ∀ (n : Node) (v : Nat) (q : List Bool),
    (((incrAt n p v)).find q).isSome = (n.find q).isSome := by
  induction p with
  | nil =>
      intro n v q
      cases n with
      | mk t c0 c1 =>
          cases q with
          | nil => simp [incrAt, find_nil]
          | cons b q' =>
              cases b <;> simp only [incrAt] <;>
                simp only [find_cons_false, find_cons_true]
  | cons b p ih =>
      intro n v q
      cases n with
      | mk t c0 c1 =>
          cases q with
          | nil => simp [find_nil]
          | cons bq q' =>
              cases b <;> cases bq <;> cases c0 <;> cases c1 <;>
                simp only [incrAt] <;>
                simp only [find_cons_false, find_cons_true] <;>
                first
                  | rfl
                  | exact ih _ v q'

theorem incrAt_sum (p : List Bool) : ∀ (n : Node) (v : Nat),
    (n.find p).isSome = true → (incrAt n p v).sum = n.sum + v := by
  induction p with
  | nil =>
      intro n v _
      cases n with
      | mk t c0 c1 => simp [incrAt, sum_mk]; omega
  | cons b p ih =>
      intro n v h
      cases n with
      | mk t c0 c1 =>
          cases b <;> cases c0 <;> cases c1 <;>
            simp only [find_cons_false, find_cons_true] at h <;>
            first
              | simp at h
              | (simp only [incrAt] ; simp [sum_mk, osum, ih _ v h] ; omega)

theorem incrAt_allWf (p : List Bool) : ∀ (n : Node) (v : Nat),
    n.allWf = true → (incrAt n p v).allWf = true := by
  induction p with
  | nil =>
      intro n v h
      cases n with
      | mk t c0 c1 =>
          cases c0 <;> cases c1 <;> simp_all [incrAt, Node.allWf] <;> omega
  | cons b p ih =>
      intro n v h
      cases n with
      | mk t c0 c1 =>
          cases b <;> cases c0 <;> cases c1 <;>
            simp_all [incrAt, Node.allWf] <;> exact ih _ v h

theorem walkAdd_allWf (p : List Bool) : ∀ (n : Node) (v : Nat), 0 < v →
    (n.allWf = true ∨ n = .mk 0 none none) → ((walkAdd n p v).1).allWf = true := by
  induction p with
  | nil =>
      intro n v hv h
      rcases h with h | rfl
      · cases n with
        | mk t c0 c1 =>
            cases c0 <;> cases c1 <;> simp_all [walkAdd, Node.allWf] <;> omega
      · simp [walkAdd, Node.allWf]; omega
  | cons b p ih =>
      intro n v hv h
      have fresh : ((walkAdd (Node.mk 0 none none) p v).1).allWf = true :=
        ih _ v hv (Or.inr rfl)
      rcases h with h | rfl
      · cases n with
        | mk t c0 c1 =>
            cases b <;> cases c0 <;> cases c1 <;>
              simp_all [walkAdd, Node.allWf] <;>
              exact ih _ v hv (Or.inl (by assumption))
      · cases b <;> simp_all [walkAdd, Node.allWf]

/-!
## Lemmas about pruning a candidate node
-/

theorem cand_cases (m : Node) (h : m.isCandidate = true) :
    (∃ t a, m = .mk t (some a) none ∧ a.term = true) ∨
    (∃ t b, m = .mk t none (some b) ∧ b.term = true) ∨
    (∃ t a b, m = .mk t (some a) (some b) ∧ a.term = true ∧ b.term = true) := by
  cases m with
  | mk t c0 c1 =>
      cases c0 with
      | none =>
          cases c1 with
          | none => simp [Node.isCandidate] at h
          | some b =>
              refine Or.inr (Or.inl ⟨t, b, rfl, ?_⟩)
              simpa [Node.isCandidate] using h
      | some a =>
          cases c1 with
          | none =>
              refine Or.inl ⟨t, a, rfl, ?_⟩
              simpa [Node.isCandidate] using h
          | some b =>
              simp only [Node.isCandidate, Bool.and_eq_true] at h
              exact Or.inr (Or.inr ⟨t, a, b, rfl, h.1, h.2⟩)

theorem term_no_descend (a : Node) (h : a.term = true) (x : Bool) (xs : List Bool) :
    (a.find (x :: xs)).isSome = true → False := by
  obtain ⟨t, rfl, -⟩ := term_children a h
  cases x <;> simp [find_cons_false, find_cons_true]

theorem pruneAt_sum (p : List Bool) : ∀ (n m : Node),
    n.find p = some m → m.isCandidate = true → ((pruneAt n p).1).sum = n.sum := by
  induction p with
  | nil =>
      intro n m hf hc
      rw [find_nil] at hf
      injection hf with hf; subst hf
      rcases cand_cases n hc with ⟨t, a, rfl, ha⟩ | ⟨t, b, rfl, hb⟩ | ⟨t, a, b, rfl, ha, hb⟩ <;>
        [obtain ⟨ta, rfl, -⟩ := term_children a ha;
         obtain ⟨tb, rfl, -⟩ := term_children b hb;
         (obtain ⟨ta, rfl, -⟩ := term_children a ha;
          obtain ⟨tb, rfl, -⟩ := term_children b hb)] <;>
        simp [pruneAt, collapseNode, sum_mk, osum, Node.nodesum] <;> omega
  | cons b p ih =>
      intro n m hf hc
      cases n with
      | mk t c0 c1 =>
          cases b <;> cases c0 <;> cases c1 <;>
            simp only [find_cons_false, find_cons_true] at hf <;>
            first
              | simp at hf
              | (simp only [pruneAt] ; simp [sum_mk, osum, ih _ _ hf hc])

theorem pruneAt_count (p : List Bool) : ∀ (n m : Node),
    n.find p = some m → m.isCandidate = true →
    ((pruneAt n p).1).count + (pruneAt n p).2.length = n.count := by
  induction p with
  | nil =>
      intro n m hf hc
      rw [find_nil] at hf
      injection hf with hf; subst hf
      rcases cand_cases n hc with ⟨t, a, rfl, ha⟩ | ⟨t, b, rfl, hb⟩ | ⟨t, a, b, rfl, ha, hb⟩ <;>
        [obtain ⟨ta, rfl, -⟩ := term_children a ha;
         obtain ⟨tb, rfl, -⟩ := term_children b hb;
         (obtain ⟨ta, rfl, -⟩ := term_children a ha;
          obtain ⟨tb, rfl, -⟩ := term_children b hb)] <;>
        simp [pruneAt, collapseNode, count_mk, ocount, Node.count]
  | cons b p ih =>
      intro n m hf hc
      cases n with
      | mk t c0 c1 =>
          cases b <;> cases c0 <;> cases c1 <;>
            simp only [find_cons_false, find_cons_true] at hf <;>
            first
              | simp at hf
              | (simp only [pruneAt] ;
                 simp [count_mk, ocount] ;
                 have := ih _ _ hf hc ; omega)

theorem pruneAt_dels_len (p : List Bool) : ∀ (n m : Node),
    n.find p = some m → m.isCandidate = true → 1 ≤ (pruneAt n p).2.length := by
  induction p with
  | nil =>
      intro n m hf hc
      rw [find_nil] at hf
      injection hf with hf; subst hf
      rcases cand_cases n hc with ⟨t, a, rfl, ha⟩ | ⟨t, b, rfl, hb⟩ | ⟨t, a, b, rfl, ha, hb⟩ <;>
        simp [pruneAt, collapseNode]
  | cons b p ih =>
      intro n m hf hc
      cases n with
      | mk t c0 c1 =>
          cases b <;> cases c0 <;> cases c1 <;>
            simp only [find_cons_false, find_cons_true] at hf <;>
            first
              | simp at hf
              | (simp only [pruneAt] ; simp ; exact ih _ _ hf hc)

theorem pruneAt_keeps (p : List Bool) : ∀ (n m : Node) (q : List Bool),
    n.find p = some m → m.isCandidate = true →
    (n.find q).isSome = true → q ∉ (pruneAt n p).2 →
    (((pruneAt n p).1).find q).isSome = true := by
  induction p with
  | nil =>
      intro n m q hf hc hq hmem
      rw [find_nil] at hf
      injection hf with hf; subst hf
      cases q with
      | nil =>
          cases n with
          | mk t c0 c1 => simp [pruneAt, collapseNode, find_nil]
      | cons s q' =>
          exfalso
          rcases cand_cases n hc with ⟨t, a, rfl, ha⟩ | ⟨t, b, rfl, hb⟩ |
            ⟨t, a, b, rfl, ha, hb⟩
          · cases s
            · rw [find_cons_false] at hq
              simp only at hq
              cases q' with
              | nil => exact hmem (by simp [pruneAt, collapseNode])
              | cons x xs => exact term_no_descend a ha x xs hq
            · rw [find_cons_true] at hq
              simp at hq
          · cases s
            · rw [find_cons_false] at hq
              simp at hq
            · rw [find_cons_true] at hq
              simp only at hq
              cases q' with
              | nil => exact hmem (by simp [pruneAt, collapseNode])
              | cons x xs => exact term_no_descend b hb x xs hq
          · cases s
            · rw [find_cons_false] at hq
              simp only at hq
              cases q' with
              | nil => exact hmem (by simp [pruneAt, collapseNode])
              | cons x xs => exact term_no_descend a ha x xs hq
            · rw [find_cons_true] at hq
              simp only at hq
              cases q' with
              | nil => exact hmem (by simp [pruneAt, collapseNode])
              | cons x xs => exact term_no_descend b hb x xs hq
  | cons bp p ih =>
      intro n m q hf hc hq hmem
      cases n with
      | mk t c0 c1 =>
          cases q with
          | nil => simp [find_nil]
          | cons bq q' =>
              cases bp
              · rw [find_cons_false] at hf
                cases c0 with
                | none => simp at hf
                | some a =>
                    simp only at hf
                    cases bq
                    · rw [find_cons_false] at hq
                      simp only at hq
                      simp only [pruneAt]
                      rw [find_cons_false]
                      simp only
                      refine ih a m q' hf hc hq ?_
                      intro hin
                      exact hmem (by
                        simp only [pruneAt]
                        exact List.mem_map_of_mem _ hin)
                    · simp only [pruneAt]
                      rw [find_cons_true] at hq ⊢
                      exact hq
              · rw [find_cons_true] at hf
                cases c1 with
                | none => simp at hf
                | some b =>
                    simp only at hf
                    cases bq
                    · simp only [pruneAt]
                      rw [find_cons_false] at hq ⊢
                      exact hq
                    · rw [find_cons_true] at hq
                      simp only at hq
                      simp only [pruneAt]
                      rw [find_cons_true]
                      simp only
                      refine ih b m q' hf hc hq ?_
                      intro hin
                      exact hmem (by
                        simp only [pruneAt]
                        exact List.mem_map_of_mem _ hin)

theorem pruneAt_allWf (p : List Bool) : ∀ (n m : Node),
    n.find p = some m → m.isCandidate = true → n.allWf = true →
    ((pruneAt n p).1).allWf = true := by
  induction p with
  | nil =>
      intro n m hf hc hw
      rw [find_nil] at hf
      injection hf with hf; subst hf
      rcases cand_cases n hc with ⟨t, a, rfl, ha⟩ | ⟨t, b, rfl, hb⟩ |
        ⟨t, a, b, rfl, ha, hb⟩
      · obtain ⟨ta, rfl, hpos⟩ := term_children a ha
        simp [pruneAt, collapseNode, Node.allWf, Node.nodesum]
        omega
      · obtain ⟨tb, rfl, hpos⟩ := term_children b hb
        simp [pruneAt, collapseNode, Node.allWf, Node.nodesum]
        omega
      · obtain ⟨ta, rfl, hpa⟩ := term_children a ha
        obtain ⟨tb, rfl, hpb⟩ := term_children b hb
        simp [pruneAt, collapseNode, Node.allWf, Node.nodesum]
        omega
  | cons bp p ih =>
      intro n m hf hc hw
      cases n with
      | mk t c0 c1 =>
          cases bp
          · rw [find_cons_false] at hf
            cases c0 with
            | none => simp at hf
            | some a =>
                simp only at hf
                simp only [pruneAt]
                cases c1 with
                | none =>
                    simp only [Node.allWf] at hw ⊢
                    exact ih a m hf hc hw
                | some b =>
                    simp only [Node.allWf, Bool.and_eq_true] at hw ⊢
                    exact ⟨ih a m hf hc hw.1, hw.2⟩
          · rw [find_cons_true] at hf
            cases c1 with
            | none => simp at hf
            | some b =>
                simp only at hf
                simp only [pruneAt]
                cases c0 with
                | none =>
                    simp only [Node.allWf] at hw ⊢
                    exact ih b m hf hc hw
                | some a =>
                    simp only [Node.allWf, Bool.and_eq_true] at hw ⊢
                    exact ⟨hw.1, ih b m hf hc hw.2⟩

/-!
## Lemmas about the prune selector
-/

theorem bestToPrune_total : ∀ (n : Node) (d : Nat), n.allWf = true → n.term = false →
    ∃ pd, bestToPrune n d = .ok pd
  | .mk t none none, _, hw, ht => by
      exfalso
      simp [Node.allWf] at hw
      simp [Node.term] at ht
      omega
  | .mk t (some a) none, d, hw, ht => by
      cases hat : a.term with
      | true => exact ⟨([], d), by simp [bestToPrune, hat]⟩
      | false =>
          have hw' : a.allWf = true := by simpa [Node.allWf] using hw
          obtain ⟨⟨p, dep⟩, hpd⟩ := bestToPrune_total a (d + 1) hw' hat
          exact ⟨(false :: p, dep), by simp [bestToPrune, hat, hpd]⟩
  | .mk t none (some b), d, hw, ht => by
      cases hbt : b.term with
      | true => exact ⟨([], d), by simp [bestToPrune, hbt]⟩
      | false =>
          have hw' : b.allWf = true := by simpa [Node.allWf] using hw
          obtain ⟨⟨p, dep⟩, hpd⟩ := bestToPrune_total b (d + 1) hw' hbt
          exact ⟨(true :: p, dep), by simp [bestToPrune, hbt, hpd]⟩
  | .mk t (some a) (some b), d, hw, ht => by
      have hwa : a.allWf = true := by
        have := hw; simp only [Node.allWf, Bool.and_eq_true] at this; exact this.1
      have hwb : b.allWf = true := by
        have := hw; simp only [Node.allWf, Bool.and_eq_true] at this; exact this.2
      cases hat : a.term with
      | true =>
          cases hbt : b.term with
          | true => exact ⟨([], d), by simp [bestToPrune, hat, hbt]⟩
          | false =>
              obtain ⟨⟨p, dep⟩, hpd⟩ := bestToPrune_total b (d + 1) hwb hbt
              exact ⟨(true :: p, dep), by simp [bestToPrune, hat, hbt, hpd]⟩
      | false =>
          cases hbt : b.term with
          | true =>
              obtain ⟨⟨p, dep⟩, hpd⟩ := bestToPrune_total a (d + 1) hwa hat
              exact ⟨(false :: p, dep), by simp [bestToPrune, hat, hbt, hpd]⟩
          | false =>
              obtain ⟨⟨p0, d0⟩, h0⟩ := bestToPrune_total a (d + 1) hwa hat
              obtain ⟨⟨p1, d1⟩, h1⟩ := bestToPrune_total b (d + 1) hwb hbt
              by_cases hlt : sumAt a p0 < sumAt b p1
              · exact ⟨(false :: p0, d0), by simp [bestToPrune, hat, hbt, h0, h1, hlt]⟩
              · by_cases hgt : sumAt b p1 < sumAt a p0
                · exact ⟨(true :: p1, d1),
                    by simp [bestToPrune, hat, hbt, h0, h1, hlt, hgt]⟩
                · by_cases hd : d0 > d1
                  · exact ⟨(false :: p0, d0),
                      by simp [bestToPrune, hat, hbt, h0, h1, hlt, hgt, hd]⟩
                  · exact ⟨(true :: p1, d1),
                      by simp [bestToPrune, hat, hbt, h0, h1, hlt, hgt, hd]⟩

theorem bestToPrune_cand : ∀ (n : Node) (d : Nat) (p : List Bool) (dep : Nat),
    bestToPrune n d = .ok (p, dep) →
    ∃ m, n.find p = some m ∧ m.isCandidate = true ∧ dep = d + p.length
  | .mk t none none, d, p, dep => by
      intro h
      simp [bestToPrune] at h
  | .mk t (some a) none, d, p, dep => by
      intro h
      cases hat : a.term with
      | true =>
          simp [bestToPrune, hat] at h
          obtain ⟨rfl, rfl⟩ := h
          exact ⟨_, find_nil _, by simp [Node.isCandidate, hat], by simp⟩
      | false =>
          cases hrec : bestToPrune a (d + 1) with
          | error e => simp [bestToPrune, hat, hrec] at h
          | ok pd =>
              obtain ⟨p', dep'⟩ := pd
              simp [bestToPrune, hat, hrec] at h
              obtain ⟨rfl, rfl⟩ := h
              obtain ⟨m, hm, hc, hd⟩ := bestToPrune_cand a (d + 1) p' dep' hrec
              refine ⟨m, ?_, hc, ?_⟩
              · rw [find_cons_false]; simpa using hm
              · rw [hd, List.length_cons]; omega
  | .mk t none (some b), d, p, dep => by
      intro h
      cases hbt : b.term with
      | true =>
          simp [bestToPrune, hbt] at h
          obtain ⟨rfl, rfl⟩ := h
          exact ⟨_, find_nil _, by simp [Node.isCandidate, hbt], by simp⟩
      | false =>
          cases hrec : bestToPrune b (d + 1) with
          | error e => simp [bestToPrune, hbt, hrec] at h
          | ok pd =>
              obtain ⟨p', dep'⟩ := pd
              simp [bestToPrune, hbt, hrec] at h
              obtain ⟨rfl, rfl⟩ := h
              obtain ⟨m, hm, hc, hd⟩ := bestToPrune_cand b (d + 1) p' dep' hrec
              refine ⟨m, ?_, hc, ?_⟩
              · rw [find_cons_true]; simpa using hm
              · rw [hd, List.length_cons]; omega
  | .mk t (some a) (some b), d, p, dep => by
      intro h
      cases hat : a.term with
      | true =>
          cases hbt : b.term with
          | true =>
              simp [bestToPrune, hat, hbt] at h
              obtain ⟨rfl, rfl⟩ := h
              exact ⟨_, find_nil _, by simp [Node.isCandidate, hat, hbt], by simp⟩
          | false =>
              cases hrec : bestToPrune b (d + 1) with
              | error e => simp [bestToPrune, hat, hbt, hrec] at h
              | ok pd =>
                  obtain ⟨p', dep'⟩ := pd
                  simp [bestToPrune, hat, hbt, hrec] at h
                  obtain ⟨rfl, rfl⟩ := h
                  obtain ⟨m, hm, hc, hd⟩ := bestToPrune_cand b (d + 1) p' dep' hrec
                  refine ⟨m, ?_, hc, ?_⟩
                  · rw [find_cons_true]; simpa using hm
                  · rw [hd, List.length_cons]; omega
      | false =>
          cases hbt : b.term with
          | true =>
              cases hrec : bestToPrune a (d + 1) with
              | error e => simp [bestToPrune, hat, hbt, hrec] at h
              | ok pd =>
                  obtain ⟨p', dep'⟩ := pd
                  simp [bestToPrune, hat, hbt, hrec] at h
                  obtain ⟨rfl, rfl⟩ := h
                  obtain ⟨m, hm, hc, hd⟩ := bestToPrune_cand a (d + 1) p' dep' hrec
                  refine ⟨m, ?_, hc, ?_⟩
                  · rw [find_cons_false]; simpa using hm
                  · rw [hd, List.length_cons]; omega
          | false =>
              cases h0 : bestToPrune a (d + 1) with
              | error e => simp [bestToPrune, hat, hbt, h0] at h
              | ok pd0 =>
                  cases h1 : bestToPrune b (d + 1) with
                  | error e => simp [bestToPrune, hat, hbt, h0, h1] at h
                  | ok pd1 =>
                      obtain ⟨p0, d0⟩ := pd0
                      obtain ⟨p1, d1⟩ := pd1
                      simp [bestToPrune, hat, hbt, h0, h1] at h
                      obtain ⟨ma, hma, hca, hda⟩ := bestToPrune_cand a (d + 1) p0 d0 h0
                      obtain ⟨mb, hmb, hcb, hdb⟩ := bestToPrune_cand b (d + 1) p1 d1 h1
                      split at h
                      · obtain ⟨rfl, rfl⟩ := h
                        refine ⟨ma, ?_, hca, ?_⟩
                        · rw [find_cons_false]; simpa using hma
                        · rw [hda, List.length_cons]; omega
                      · split at h
                        · obtain ⟨rfl, rfl⟩ := h
                          refine ⟨mb, ?_, hcb, ?_⟩
                          · rw [find_cons_true]; simpa using hmb
                          · rw [hdb, List.length_cons]; omega
                        · split at h
                          · obtain ⟨rfl, rfl⟩ := h
                            refine ⟨ma, ?_, hca, ?_⟩
                            · rw [find_cons_false]; simpa using hma
                            · rw [hda, List.length_cons]; omega
                          · obtain ⟨rfl, rfl⟩ := h
                            refine ⟨mb, ?_, hcb, ?_⟩
                            · rw [find_cons_true]; simpa using hmb
                            · rw [hdb, List.length_cons]; omega

theorem bestToPrune_min : ∀ (n : Node) (d : Nat) (p : List Bool) (dep : Nat),
    bestToPrune n d = .ok (p, dep) →
    ∀ (q : List Bool) (mq : Node), n.find q = some mq → mq.isCandidate = true →
      sumAt n p ≤ sumAt n q ∧ (sumAt n p = sumAt n q → q.length ≤ p.length)
  | .mk t none none, d, p, dep => by
      intro h
      simp [bestToPrune] at h
  | .mk t (some a) none, d, p, dep => by
      intro h q mq hq hcq
      cases hat : a.term with
      | true =>
          simp [bestToPrune, hat] at h
          obtain ⟨rfl, rfl⟩ := h
          cases q with
          | nil => exact ⟨le_rfl, fun _ => le_rfl⟩
          | cons s q' =>
              cases s
              · rw [find_cons_false] at hq
                simp only at hq
                rw [term_no_candidate a hat q' mq hq] at hcq
                simp at hcq
              · rw [find_cons_true] at hq
                simp at hq
      | false =>
          cases hrec : bestToPrune a (d + 1) with
          | error e => simp [bestToPrune, hat, hrec] at h
          | ok pd =>
              obtain ⟨p', dep'⟩ := pd
              simp [bestToPrune, hat, hrec] at h
              obtain ⟨rfl, rfl⟩ := h
              cases q with
              | nil =>
                  rw [find_nil] at hq
                  injection hq with hq; subst hq
                  simp [Node.isCandidate, hat] at hcq
              | cons s q' =>
                  cases s
                  · rw [find_cons_false] at hq
                    simp only at hq
                    have IH := bestToPrune_min a (d + 1) p' dep' hrec q' mq hq hcq
                    rw [sumAt_cons_false, sumAt_cons_false]
                    exact ⟨IH.1, fun he => by
                      have := IH.2 he; simp only [List.length_cons]; omega⟩
                  · rw [find_cons_true] at hq
                    simp at hq
  | .mk t none (some b), d, p, dep => by
      intro h q mq hq hcq
      cases hbt : b.term with
      | true =>
          simp [bestToPrune, hbt] at h
          obtain ⟨rfl, rfl⟩ := h
          cases q with
          | nil => exact ⟨le_rfl, fun _ => le_rfl⟩
          | cons s q' =>
              cases s
              · rw [find_cons_false] at hq
                simp at hq
              · rw [find_cons_true] at hq
                simp only at hq
                rw [term_no_candidate b hbt q' mq hq] at hcq
                simp at hcq
      | false =>
          cases hrec : bestToPrune b (d + 1) with
          | error e => simp [bestToPrune, hbt, hrec] at h
          | ok pd =>
              obtain ⟨p', dep'⟩ := pd
              simp [bestToPrune, hbt, hrec] at h
              obtain ⟨rfl, rfl⟩ := h
              cases q with
              | nil =>
                  rw [find_nil] at hq
                  injection hq with hq; subst hq
                  simp [Node.isCandidate, hbt] at hcq
              | cons s q' =>
                  cases s
                  · rw [find_cons_false] at hq
                    simp at hq
                  · rw [find_cons_true] at hq
                    simp only at hq
                    have IH := bestToPrune_min b (d + 1) p' dep' hrec q' mq hq hcq
                    rw [sumAt_cons_true, sumAt_cons_true]
                    exact ⟨IH.1, fun he => by
                      have := IH.2 he; simp only [List.length_cons]; omega⟩
  | .mk t (some a) (some b), d, p, dep => by
      intro h q mq hq hcq
      cases hat : a.term with
      | true =>
          cases hbt : b.term with
          | true =>
              simp [bestToPrune, hat, hbt] at h
              obtain ⟨rfl, rfl⟩ := h
              cases q with
              | nil => exact ⟨le_rfl, fun _ => le_rfl⟩
              | cons s q' =>
                  cases s
                  · rw [find_cons_false] at hq
                    simp only at hq
                    rw [term_no_candidate a hat q' mq hq] at hcq
                    simp at hcq
                  · rw [find_cons_true] at hq
                    simp only at hq
                    rw [term_no_candidate b hbt q' mq hq] at hcq
                    simp at hcq
          | false =>
              cases hrec : bestToPrune b (d + 1) with
              | error e => simp [bestToPrune, hat, hbt, hrec] at h
              | ok pd =>
                  obtain ⟨p', dep'⟩ := pd
                  simp [bestToPrune, hat, hbt, hrec] at h
                  obtain ⟨rfl, rfl⟩ := h
                  cases q with
                  | nil =>
                      rw [find_nil] at hq
                      injection hq with hq; subst hq
                      simp [Node.isCandidate, hbt] at hcq
                  | cons s q' =>
                      cases s
                      · rw [find_cons_false] at hq
                        simp only at hq
                        rw [term_no_candidate a hat q' mq hq] at hcq
                        simp at hcq
                      · rw [find_cons_true] at hq
                        simp only at hq
                        have IH := bestToPrune_min b (d + 1) p' dep' hrec q' mq hq hcq
                        rw [sumAt_cons_true, sumAt_cons_true]
                        exact ⟨IH.1, fun he => by
                          have := IH.2 he; simp only [List.length_cons]; omega⟩
      | false =>
          cases hbt : b.term with
          | true =>
              cases hrec : bestToPrune a (d + 1) with
              | error e => simp [bestToPrune, hat, hbt, hrec] at h
              | ok pd =>
                  obtain ⟨p', dep'⟩ := pd
                  simp [bestToPrune, hat, hbt, hrec] at h
                  obtain ⟨rfl, rfl⟩ := h
                  cases q with
                  | nil =>
                      rw [find_nil] at hq
                      injection hq with hq; subst hq
                      simp [Node.isCandidate, hat] at hcq
                  | cons s q' =>
                      cases s
                      · rw [find_cons_false] at hq
                        simp only at hq
                        have IH := bestToPrune_min a (d + 1) p' dep' hrec q' mq hq hcq
                        rw [sumAt_cons_false, sumAt_cons_false]
                        exact ⟨IH.1, fun he => by
                          have := IH.2 he; simp only [List.length_cons]; omega⟩
                      · rw [find_cons_true] at hq
                        simp only at hq
                        rw [term_no_candidate b hbt q' mq hq] at hcq
                        simp at hcq
          | false =>
              cases h0 : bestToPrune a (d + 1) with
              | error e => simp [bestToPrune, hat, hbt, h0] at h
              | ok pd0 =>
                  cases h1 : bestToPrune b (d + 1) with
                  | error e => simp [bestToPrune, hat, hbt, h0, h1] at h
                  | ok pd1 =>
                      obtain ⟨p0, d0⟩ := pd0
                      obtain ⟨p1, d1⟩ := pd1
                      obtain ⟨ma, hma, hca, hda⟩ := bestToPrune_cand a (d + 1) p0 d0 h0
                      obtain ⟨mb, hmb, hcb, hdb⟩ := bestToPrune_cand b (d + 1) p1 d1 h1
                      simp [bestToPrune, hat, hbt, h0, h1] at h
                      split at h
                      · -- sumAt a p0 < sumAt b p1
                        rename_i hlt
                        obtain ⟨rfl, rfl⟩ := h
                        cases q with
                        | nil =>
                            rw [find_nil] at hq
                            injection hq with hq; subst hq
                            simp [Node.isCandidate, hat] at hcq
                        | cons s q' =>
                            cases s
                            · rw [find_cons_false] at hq
                              simp only at hq
                              have IH := bestToPrune_min a (d + 1) p0 _ h0 q' mq hq hcq
                              rw [sumAt_cons_false, sumAt_cons_false]
                              exact ⟨IH.1, fun he => by
                                have := IH.2 he; simp only [List.length_cons]; omega⟩
                            · rw [find_cons_true] at hq
                              simp only at hq
                              have IH := bestToPrune_min b (d + 1) p1 _ h1 q' mq hq hcq
                              rw [sumAt_cons_false, sumAt_cons_true]
                              refine ⟨by omega, fun he => by omega⟩
                      · split at h
                        · -- sumAt b p1 < sumAt a p0
                          rename_i hnlt hgt
                          obtain ⟨rfl, rfl⟩ := h
                          cases q with
                          | nil =>
                              rw [find_nil] at hq
                              injection hq with hq; subst hq
                              simp [Node.isCandidate, hat] at hcq
                          | cons s q' =>
                              cases s
                              · rw [find_cons_false] at hq
                                simp only at hq
                                have IH := bestToPrune_min a (d + 1) p0 _ h0 q' mq hq hcq
                                rw [sumAt_cons_true, sumAt_cons_false]
                                refine ⟨by omega, fun he => by omega⟩
                              · rw [find_cons_true] at hq
                                simp only at hq
                                have IH := bestToPrune_min b (d + 1) p1 _ h1 q' mq hq hcq
                                rw [sumAt_cons_true, sumAt_cons_true]
                                exact ⟨IH.1, fun he => by
                                  have := IH.2 he; simp only [List.length_cons]; omega⟩
                        · split at h
                          · -- equal sums, d0 > d1
                            rename_i hnlt hngt hdd
                            obtain ⟨rfl, rfl⟩ := h
                            cases q with
                            | nil =>
                                rw [find_nil] at hq
                                injection hq with hq; subst hq
                                simp [Node.isCandidate, hat] at hcq
                            | cons s q' =>
                                cases s
                                · rw [find_cons_false] at hq
                                  simp only at hq
                                  have IH := bestToPrune_min a (d + 1) p0 _ h0 q' mq hq hcq
                                  rw [sumAt_cons_false, sumAt_cons_false]
                                  exact ⟨IH.1, fun he => by
                                    have := IH.2 he; simp only [List.length_cons]; omega⟩
                                · rw [find_cons_true] at hq
                                  simp only at hq
                                  have IH := bestToPrune_min b (d + 1) p1 _ h1 q' mq hq hcq
                                  rw [sumAt_cons_false, sumAt_cons_true]
                                  refine ⟨by omega, fun he => ?_⟩
                                  have h2 := IH.2 (by omega)
                                  simp only [List.length_cons]
                                  omega
                          · -- equal sums, d0 ≤ d1
                            rename_i hnlt hngt hndd
                            obtain ⟨rfl, rfl⟩ := h
                            cases q with
                            | nil =>
                                rw [find_nil] at hq
                                injection hq with hq; subst hq
                                simp [Node.isCandidate, hat] at hcq
                            | cons s q' =>
                                cases s
                                · rw [find_cons_false] at hq
                                  simp only at hq
                                  have IH := bestToPrune_min a (d + 1) p0 _ h0 q' mq hq hcq
                                  rw [sumAt_cons_true, sumAt_cons_false]
                                  refine ⟨by omega, fun he => ?_⟩
                                  have h2 := IH.2 (by omega)
                                  simp only [List.length_cons]
                                  omega
                                · rw [find_cons_true] at hq
                                  simp only at hq
                                  have IH := bestToPrune_min b (d + 1) p1 _ h1 q' mq hq hcq
                                  rw [sumAt_cons_true, sumAt_cons_true]
                                  exact ⟨IH.1, fun he => by
                                    have := IH.2 he; simp only [List.length_cons]; omega⟩

/-!
## Bit-level lemmas shared by the cache and the pair tree
-/

theorem testBit_ge_eight (x r : Nat) (hx : x < 256) (hr : 8 ≤ r) :
    x.testBit r = false := by
  apply Nat.testBit_eq_false_of_lt
  calc x < 256 := hx
    _ = 2 ^ 8 := by norm_num
    _ ≤ 2 ^ r := Nat.pow_le_pow_right (by norm_num) hr

theorem byte_eq_of_testBit (x y : Nat) (hx : x < 256) (hy : y < 256)
    (h : ∀ r, r < 8 → x.testBit r = y.testBit r) : x = y := by
  apply Nat.eq_of_testBit_eq
  intro i
  by_cases hi : i < 8
  · exact h i hi
  · rw [testBit_ge_eight x i hx (by omega), testBit_ge_eight y i hy (by omega)]

theorem bit_byte (a : List Nat) (j r : Nat) (hr : r < 8) :
    bit a (8 * j + (7 - r)) = (a.getD j 0).testBit r := by
  unfold bit
  have h1 : (8 * j + (7 - r)) / 8 = j := by omega
  have h2 : (8 * j + (7 - r)) % 8 = 7 - r := by omega
  rw [h1, h2]
  congr 1
  omega

theorem bitPath_getElem (a : List Nat) (k i : Nat) (h : i < k) :
    (bitPath a k)[i]? = some (bit a i) := by
  unfold bitPath
  rw [List.getElem?_map, List.getElem?_range h]
  rfl

theorem bitPath_length (a : List Nat) (k : Nat) : (bitPath a k).length = k := by
  simp [bitPath]

theorem bitPath_ext (a b : List Nat) (k : Nat) (h : bitPath a k = bitPath b k)
    (i : Nat) (hi : i < k) : bit a i = bit b i := by
  have h2 := congrArg (fun l => l[i]?) h
  simp only at h2
  rw [bitPath_getElem a k i hi, bitPath_getElem b k i hi] at h2
  exact Option.some.inj h2

theorem bitPath_congr (a b : List Nat) (k : Nat)
    (h : ∀ i, i < k → bit a i = bit b i) : bitPath a k = bitPath b k := by
  unfold bitPath
  apply List.ext_getElem
  · simp
  · intro i h1 h2
    simp only [List.getElem_map, List.getElem_range]
    apply h
    simpa using h1

theorem getD_take (a : List Nat) (l j : Nat) (hj : j < l) :
    (a.take l).getD j 0 = a.getD j 0 := by
  rw [List.getD_eq_getElem?_getD, List.getD_eq_getElem?_getD,
    List.getElem?_take_of_lt hj]

theorem getD_take_append (q tail2 : List Nat) (l j : Nat) (hj : j < l)
    (hq : l ≤ q.length) :
    (q.take l ++ tail2).getD j 0 = q.getD j 0 := by
  rw [List.getD_eq_getElem?_getD,
    List.getElem?_append_left (by rw [List.length_take]; omega)]
  rw [List.getElem?_take_of_lt hj]
  rw [List.getD_eq_getElem?_getD]

theorem take_eq_of_bitPath (a b : List Nat) (l : Nat)
    (ha : l ≤ a.length) (hb : l ≤ b.length)
    (ha2 : ∀ x ∈ a, x < 256) (hb2 : ∀ x ∈ b, x < 256)
    (h : bitPath a (l * 8) = bitPath b (l * 8)) : a.take l = b.take l := by
  apply List.ext_getElem
  · simp [List.length_take]; omega
  · intro j h1 h2
    rw [List.length_take] at h1
    have hj : j < l := lt_of_lt_of_le h1 (min_le_left _ _)
    rw [List.getElem_take, List.getElem_take]
    have hja : j < a.length := by omega
    have hjb : j < b.length := by omega
    apply byte_eq_of_testBit
    · exact ha2 _ (List.getElem_mem hja)
    · exact hb2 _ (List.getElem_mem hjb)
    · intro r hr
      have hga : a[j] = a.getD j 0 := by
        rw [List.getD_eq_getElem?_getD, List.getElem?_eq_getElem hja]; rfl
      have hgb : b[j] = b.getD j 0 := by
        rw [List.getD_eq_getElem?_getD, List.getElem?_eq_getElem hjb]; rfl
      rw [hga, hgb, ← bit_byte a j r hr, ← bit_byte b j r hr]
      exact bitPath_ext a b (l * 8) h _ (by omega)

theorem bit_take (a : List Nat) (l i : Nat) (hi : i < l * 8) :
    bit (a.take l) i = bit a i := by
  unfold bit
  rw [getD_take a l (i / 8) (by omega)]

theorem bit_take_append (q tail2 : List Nat) (l i : Nat) (hi : i < l * 8)
    (hq : l ≤ q.length) : bit (q.take l ++ tail2) i = bit q i := by
  unfold bit
  rw [getD_take_append q tail2 l (i / 8) (by omega) hq]

theorem bitPath_take_append (q tail2 : List Nat) (l : Nat) (hq : l ≤ q.length)
    (k : Nat) (hk : k ≤ l * 8) :
    bitPath (q.take l ++ tail2) k = bitPath q k := by
  apply bitPath_congr
  intro i hi
  exact bit_take_append q tail2 l i (by omega) hq

/-!
## Cache coherence
-/


theorem occPaths_mem (c : List CacheEl) (p : List Bool) :
    p ∈ occPaths c ↔ ∃ e ∈ c, e.ptr = some p := by
  simp [occPaths, List.mem_filterMap]

theorem cacheRemove_slots (c : List CacheEl) (p : List Bool) :
    ∀ e2 ∈ cacheRemove c p, ∃ e ∈ c, e2.addr = e.addr ∧
      (e2.ptr = e.ptr ∨ e2.ptr = none) := by
  induction c with
  | nil => intro e2 h; simp [cacheRemove] at h
  | cons e rest ih =>
      intro e2 h
      by_cases he : e.ptr = some p
      · simp only [cacheRemove, if_pos he, List.mem_cons] at h
        rcases h with rfl | h
        · exact ⟨e, List.mem_cons_self e rest, rfl, Or.inr rfl⟩
        · exact ⟨e2, List.mem_cons_of_mem e h, rfl, Or.inl rfl⟩
      · simp only [cacheRemove, if_neg he, List.mem_cons] at h
        rcases h with rfl | h
        · exact ⟨e2, List.mem_cons_self _ _, rfl, Or.inl rfl⟩
        · obtain ⟨e3, h3, h4⟩ := ih e2 h
          exact ⟨e3, List.mem_cons_of_mem e h3, h4⟩

theorem cacheRemove_occ_sub (c : List CacheEl) (p q : List Bool)
    (h : q ∈ occPaths (cacheRemove c p)) : q ∈ occPaths c := by
  rw [occPaths_mem] at h ⊢
  obtain ⟨e2, h2, h3⟩ := h
  obtain ⟨e, he, -, h5⟩ := cacheRemove_slots c p e2 h2
  rcases h5 with h5 | h5
  · exact ⟨e, he, by rw [← h5, h3]⟩
  · rw [h5] at h3; exact absurd h3 (by simp)

theorem cacheRemove_nodup (c : List CacheEl) (p : List Bool)
    (h : (occPaths c).Nodup) : (occPaths (cacheRemove c p)).Nodup := by
  induction c with
  | nil => simpa [cacheRemove, occPaths]
  | cons e rest ih =>
      by_cases he : e.ptr = some p
      · simp only [cacheRemove, if_pos he]
        simp only [occPaths, List.filterMap_cons, he] at h ⊢
        simp only [List.nodup_cons] at h
        simpa [occPaths] using h.2
      · simp only [cacheRemove, if_neg he]
        cases hep : e.ptr with
        | none =>
            simp only [occPaths, List.filterMap_cons, hep] at h ⊢
            exact ih h
        | some x =>
            simp only [occPaths, List.filterMap_cons, hep] at h ⊢
            simp only [List.nodup_cons] at h ⊢
            refine ⟨fun hc => h.1 (cacheRemove_occ_sub rest p x hc), ih h.2⟩

theorem cacheRemove_gone (c : List CacheEl) (p : List Bool)
    (h : (occPaths c).Nodup) : p ∉ occPaths (cacheRemove c p) := by
  induction c with
  | nil => simp [cacheRemove, occPaths]
  | cons e rest ih =>
      by_cases he : e.ptr = some p
      · simp only [cacheRemove, if_pos he]
        simp only [occPaths, List.filterMap_cons, he] at h
        simp only [List.nodup_cons] at h
        simpa [occPaths] using h.1
      · simp only [cacheRemove, if_neg he]
        cases hep : e.ptr with
        | none =>
            simp only [occPaths, List.filterMap_cons, hep] at h ⊢
            exact ih h
        | some x =>
            simp only [occPaths, List.filterMap_cons, hep] at h ⊢
            simp only [List.nodup_cons] at h
            intro hc
            rcases List.mem_cons.mp hc with hc | hc
            · rw [hep] at he; exact he (by rw [hc])
            · exact ih h.2 hc

theorem foldRemove_occ_sub (ds : List (List Bool)) :
    ∀ (c : List CacheEl) (q : List Bool),
    q ∈ occPaths (ds.foldl (fun c2 p => cacheRemove c2 p) c) → q ∈ occPaths c := by
  induction ds with
  | nil => intro c q h; simpa using h
  | cons p ds ih =>
      intro c q h
      exact cacheRemove_occ_sub c p q (ih (cacheRemove c p) q h)

theorem foldRemove_nodup (ds : List (List Bool)) :
    ∀ (c : List CacheEl), (occPaths c).Nodup →
    (occPaths (ds.foldl (fun c2 p => cacheRemove c2 p) c)).Nodup := by
  induction ds with
  | nil => intro c h; simpa using h
  | cons p ds ih =>
      intro c h
      exact ih (cacheRemove c p) (cacheRemove_nodup c p h)

theorem foldRemove_gone (ds : List (List Bool)) :
    ∀ (c : List CacheEl), (occPaths c).Nodup →
    ∀ p ∈ ds, p ∉ occPaths (ds.foldl (fun c2 p => cacheRemove c2 p) c) := by
  induction ds with
  | nil => intro c _ p h; simp at h
  | cons p0 ds ih =>
      intro c h p hp
      rcases List.mem_cons.mp hp with rfl | hp
      · intro hc
        exact cacheRemove_gone c p h (foldRemove_occ_sub ds (cacheRemove c p) p hc)
      · exact ih (cacheRemove c p0) (cacheRemove_nodup c p0 h) p hp

theorem foldRemove_slots (ds : List (List Bool)) :
    ∀ (c : List CacheEl) (e2 : CacheEl),
    e2 ∈ ds.foldl (fun c2 p => cacheRemove c2 p) c →
    ∃ e ∈ c, e2.addr = e.addr ∧ (e2.ptr = e.ptr ∨ e2.ptr = none) := by
  induction ds with
  | nil => intro c e2 h; exact ⟨e2, by simpa using h, rfl, Or.inl rfl⟩
  | cons p ds ih =>
      intro c e2 h
      obtain ⟨e3, h3, h4, h5⟩ := ih (cacheRemove c p) e2 h
      obtain ⟨e, he, h6, h7⟩ := cacheRemove_slots c p e3 h3
      refine ⟨e, he, by rw [h4, h6], ?_⟩
      rcases h5 with h5 | h5
      · rcases h7 with h7 | h7
        · exact Or.inl (by rw [h5, h7])
        · exact Or.inr (by rw [h5, h7])
      · exact Or.inr h5

theorem cacheSearch_none (c : List CacheEl) (q : List Nat) (len : Nat)
    (h : cacheSearch c q len = none) :
    ∀ e ∈ c, e.ptr.isSome = true → e.addr.take len ≠ q.take len := by
  induction c with
  | nil => intro e he; simp at he
  | cons e0 rest ih =>
      intro e he hs
      by_cases hc : e0.ptr.isSome = true ∧ e0.addr.take len = q.take len
      · exfalso
        simp only [cacheSearch, hc.1, hc.2] at h
        simp at h
      · rcases List.mem_cons.mp he with rfl | he2
        · intro heq
          exact hc ⟨hs, heq⟩
        · refine ih ?_ e he2 hs
          by_cases h1 : e0.ptr.isSome = true
          · have h2 : ¬ e0.addr.take len = q.take len := fun h2 => hc ⟨h1, h2⟩
            simpa [cacheSearch, h1, h2] using h
          · simp only [cacheSearch] at h
            rwa [if_neg (by simp [h1])] at h

theorem cacheSearch_some (c : List CacheEl) (q : List Nat) (len : Nat)
    (e : CacheEl) (h : cacheSearch c q len = some e) :
    e ∈ c ∧ e.ptr.isSome = true ∧ e.addr.take len = q.take len := by
  induction c with
  | nil => simp [cacheSearch] at h
  | cons e0 rest ih =>
      by_cases hc : e0.ptr.isSome = true ∧ e0.addr.take len = q.take len
      · rw [show cacheSearch (e0 :: rest) q len = some e0 from by
          simp [cacheSearch, hc.1, hc.2]] at h
        injection h with h; subst h
        exact ⟨List.mem_cons_self _ _, hc.1, hc.2⟩
      · have h2 : cacheSearch rest q len = some e := by
          by_cases h1 : e0.ptr.isSome = true
          · have h3 : ¬ e0.addr.take len = q.take len := fun hx => hc ⟨h1, hx⟩
            simpa [cacheSearch, h1, h3] using h
          · simp only [cacheSearch] at h
            rwa [if_neg (by simp [h1])] at h
        obtain ⟨h3, h4, h5⟩ := ih h2
        exact ⟨List.mem_cons_of_mem _ h3, h4, h5⟩

theorem occPaths_cons_some (e : CacheEl) (rest : List CacheEl) (p : List Bool)
    (h : e.ptr = some p) : occPaths (e :: rest) = p :: occPaths rest := by
  simp [occPaths, List.filterMap_cons, h]

theorem occPaths_cons_none (e : CacheEl) (rest : List CacheEl)
    (h : e.ptr = none) : occPaths (e :: rest) = occPaths rest := by
  simp [occPaths, List.filterMap_cons, h]

theorem occPaths_tail_sub (e : CacheEl) (rest : List CacheEl) (q : List Bool)
    (h : q ∈ occPaths rest) : q ∈ occPaths (e :: rest) := by
  cases hp : e.ptr with
  | none => rwa [occPaths_cons_none e rest hp]
  | some x => rw [occPaths_cons_some e rest x hp]; exact List.mem_cons_of_mem _ h

theorem set_occ (c : List CacheEl) : ∀ (i : Nat) (a2 : List Nat)
    (pnew : List Bool) (q : List Bool),
    q ∈ occPaths (c.set i ⟨a2, some pnew⟩) → q ∈ occPaths c ∨ q = pnew := by
  induction c with
  | nil => intro i _ _ q h; simp [occPaths] at h
  | cons e rest ih =>
      intro i a2 pnew q h
      cases i with
      | zero =>
          rw [List.set_cons_zero] at h
          rw [occPaths_cons_some ⟨a2, some pnew⟩ rest pnew rfl] at h
          rcases List.mem_cons.mp h with rfl | h
          · exact Or.inr rfl
          · exact Or.inl (occPaths_tail_sub e rest q h)
      | succ i =>
          rw [List.set_cons_succ] at h
          cases hp : e.ptr with
          | none =>
              rw [occPaths_cons_none _ _ hp] at h
              rcases ih i a2 pnew q h with h2 | h2
              · exact Or.inl (occPaths_tail_sub e rest q h2)
              · exact Or.inr h2
          | some x =>
              rw [occPaths_cons_some _ _ x hp] at h
              rcases List.mem_cons.mp h with rfl | h
              · exact Or.inl (by rw [occPaths_cons_some e rest q hp]; exact List.mem_cons_self _ _)
              · rcases ih i a2 pnew q h with h2 | h2
                · exact Or.inl (occPaths_tail_sub e rest q h2)
                · exact Or.inr h2

theorem set_nodup (c : List CacheEl) : ∀ (i : Nat) (a2 : List Nat)
    (pnew : List Bool), (occPaths c).Nodup → pnew ∉ occPaths c →
    (occPaths (c.set i ⟨a2, some pnew⟩)).Nodup := by
  induction c with
  | nil => intro i _ _ _ _; simp [occPaths]
  | cons e rest ih =>
      intro i a2 pnew hnd hnot
      cases i with
      | zero =>
          rw [List.set_cons_zero]
          rw [occPaths_cons_some ⟨a2, some pnew⟩ rest pnew rfl]
          rw [List.nodup_cons]
          constructor
          · intro hc; exact hnot (occPaths_tail_sub e rest pnew hc)
          · cases hp : e.ptr with
            | none => rwa [occPaths_cons_none _ _ hp] at hnd
            | some x =>
                rw [occPaths_cons_some _ _ x hp] at hnd
                exact (List.nodup_cons.mp hnd).2
      | succ i =>
          rw [List.set_cons_succ]
          cases hp : e.ptr with
          | none =>
              rw [occPaths_cons_none _ _ hp] at hnd ⊢
              refine ih i a2 pnew hnd ?_
              intro hc; exact hnot (occPaths_tail_sub e rest pnew hc)
          | some x =>
              rw [occPaths_cons_some _ _ x hp] at hnd ⊢
              rw [occPaths_cons_some _ _ x hp] at hnot
              rw [List.nodup_cons] at hnd ⊢
              constructor
              · intro hc
                rcases set_occ rest i a2 pnew x hc with h2 | h2
                · exact hnd.1 h2
                · exact hnot (by rw [h2]; exact List.mem_cons_self _ _)
              · refine ih i a2 pnew hnd.2 ?_
                intro hc
                exact hnot (List.mem_cons_of_mem _ hc)

/-!
## State-level lemmas: `prune`, the prune loop, `prune_if_greater`
-/

theorem pruneStep_ok (st st2 : IPT) (r : Nat) (h : pruneStep st = .ok (st2, r)) :
    st2.root.sum = st.root.sum ∧
    st2.maxnodes = st.maxnodes ∧
    st2.addrbytes = st.addrbytes ∧
    (st.root.count = st.nodes + 1 → st2.root.count = st2.nodes + 1) ∧
    (CacheWF st.addrbytes st.root st.cache →
      CacheWF st.addrbytes st2.root st2.cache) ∧
    (st.root.allWf = true → st2.root.allWf = true) ∧
    (st.root.count = st.nodes + 1 → r = 1 → st2.nodes < st.nodes) := by
  unfold pruneStep at h
  by_cases ht : st.root.term = true
  · rw [if_pos ht] at h
    injection h with h
    injection h with h1 h2
    subst h1
    exact ⟨rfl, rfl, rfl, fun h => h, fun h => h, fun h => h,
      fun _ hr => by omega⟩
  · rw [if_neg ht] at h
    cases hb : bestToPrune st.root 0 with
    | error e => rw [hb] at h; exact absurd h (by simp)
    | ok pd =>
        obtain ⟨p, dep⟩ := pd
        rw [hb] at h
        simp only at h
        injection h with h
        injection h with h1 h2
        subst h1
        obtain ⟨m, hm, hc, -⟩ := bestToPrune_cand st.root 0 p dep hb
        have hdel1 : 1 ≤ (pruneAt st.root p).2.length := pruneAt_dels_len p st.root m hm hc
        have hcount := pruneAt_count p st.root m hm hc
        have hcpos := count_pos (pruneAt st.root p).1
        refine ⟨pruneAt_sum p st.root m hm hc, rfl, rfl, ?_, ?_, ?_, ?_⟩
        · intro hin
          simp only
          omega
        · intro hwf
          obtain ⟨hnd, hbytes, hptr⟩ := hwf
          refine ⟨foldRemove_nodup _ _ hnd, ?_, ?_⟩
          · intro e2 he2
            obtain ⟨e, he, haddr, -⟩ := foldRemove_slots _ _ e2 he2
            rw [haddr]
            exact hbytes e he
          · intro e2 he2 q hq
            obtain ⟨e, he, haddr, hp2⟩ := foldRemove_slots _ _ e2 he2
            rcases hp2 with hp2 | hp2
            · rw [hq] at hp2
              obtain ⟨hb1, hb2⟩ := hptr e he q (Eq.symm hp2)
              refine ⟨by rw [haddr]; exact hb1, ?_⟩
              have hocc : q ∈ occPaths ((pruneAt st.root p).2.foldl
                  (fun c2 p2 => cacheRemove c2 p2) st.cache) := by
                rw [occPaths_mem]; exact ⟨e2, he2, hq⟩
              have hnin : q ∉ (pruneAt st.root p).2 := by
                intro hin
                exact foldRemove_gone _ _ hnd q hin hocc
              exact pruneAt_keeps p st.root m q hm hc hb2 hnin
            · rw [hq] at hp2; exact absurd hp2 (by simp)
        · intro hwf
          exact pruneAt_allWf p st.root m hm hc hwf
        · intro hin hr
          simp only
          omega

theorem pruneStep_total (st : IPT) (ht : st.root.term = false)
    (hw : st.root.allWf = true) : ∃ st2, pruneStep st = .ok (st2, 1) := by
  obtain ⟨pd, hpd⟩ := bestToPrune_total st.root 0 hw ht
  refine ⟨{ st with
            root := (pruneAt st.root pd.1).1
            nodes := st.nodes - (pruneAt st.root pd.1).2.length
            pruned := st.pruned + (pruneAt st.root pd.1).2.length
            cache := (pruneAt st.root pd.1).2.foldl
              (fun c p => cacheRemove c p) st.cache }, ?_⟩
  unfold pruneStep
  rw [if_neg (by simp [ht]), hpd]

theorem pruneLoop_ok (f : Nat) : ∀ (st st2 : IPT), pruneLoop f st = .ok st2 →
    st2.root.sum = st.root.sum ∧
    st2.maxnodes = st.maxnodes ∧
    st2.addrbytes = st.addrbytes ∧
    (st.root.count = st.nodes + 1 → st2.root.count = st2.nodes + 1) ∧
    (CacheWF st.addrbytes st.root st.cache →
      CacheWF st.addrbytes st2.root st2.cache) ∧
    (st.root.allWf = true → st2.root.allWf = true) := by
  induction f with
  | zero =>
      intro st st2 h
      simp only [pruneLoop] at h
      injection h with h; subst h
      exact ⟨rfl, rfl, rfl, fun h => h, fun h => h, fun h => h⟩
  | succ f ih =>
      intro st st2 h
      simp only [pruneLoop] at h
      by_cases hg : st.maxnodes * 9 / 10 < st.nodes
      · rw [if_pos hg] at h
        cases hp : pruneStep st with
        | error e => rw [hp] at h; exact absurd h (by simp)
        | ok pr =>
            obtain ⟨st1, r⟩ := pr
            rw [hp] at h
            simp only at h
            obtain ⟨hsum, hmax, hab, hcnt, hcwf, hwf, -⟩ :=
              pruneStep_ok st st1 r hp
            by_cases hr : r = 0
            · rw [if_pos hr] at h
              injection h with h; subst h
              exact ⟨hsum, hmax, hab, hcnt, hcwf, hwf⟩
            · rw [if_neg hr] at h
              obtain ⟨i1, i2, i3, i4, i5, i6⟩ := ih st1 st2 h
              refine ⟨by rw [i1, hsum], by rw [i2, hmax], by rw [i3, hab],
                fun hc => i4 (hcnt hc), ?_, ?_⟩
              · intro hc
                have h1 := hcwf hc
                rw [← hab] at h1
                have h2 := i5 h1
                rwa [hab] at h2
              · intro hd
                exact i6 (hwf hd)
      · rw [if_neg hg] at h
        injection h with h; subst h
        exact ⟨rfl, rfl, rfl, fun h => h, fun h => h, fun h => h⟩

theorem pruneLoop_zero (f : Nat) (st : IPT) (h : st.nodes = 0) :
    pruneLoop f st = .ok st := by
  cases f with
  | zero => rfl
  | succ f =>
      simp only [pruneLoop]
      rw [if_neg (by omega)]

theorem pruneLoop_bound (f : Nat) : ∀ (st : IPT),
    st.root.count = st.nodes + 1 →
    (st.root.allWf = true ∨ st.nodes = 0) →
    st.nodes < f →
    ∃ st2, pruneLoop f st = .ok st2 ∧
      (st2.nodes ≤ st.maxnodes * 9 / 10 ∨ st2.nodes = 0) := by
  induction f with
  | zero => intro st _ _ hf; omega
  | succ f ih =>
      intro st hc hw hf
      by_cases hg : st.maxnodes * 9 / 10 < st.nodes
      · have hwf : st.root.allWf = true := by
          rcases hw with h | h
          · exact h
          · omega
        have hterm : st.root.term = false := by
          cases hterm2 : st.root.term
          · rfl
          · exfalso
            have := term_count st.root hterm2
            omega
        obtain ⟨st1, hps⟩ := pruneStep_total st hterm hwf
        obtain ⟨hsum, hmax, hab, hcnt, hcwf, hwfp, hdec⟩ :=
          pruneStep_ok st st1 1 hps
        have hdec2 := hdec hc rfl
        have hc1 := hcnt hc
        obtain ⟨st2, hloop, hb⟩ := ih st1 hc1 (Or.inl (hwfp hwf)) (by omega)
        refine ⟨st2, ?_, ?_⟩
        · simp only [pruneLoop]
          rw [if_pos hg, hps]
          simp only
          rw [if_neg (by omega : ¬(1 = 0))]
          exact hloop
        · rw [hmax] at hb
          exact hb
      · refine ⟨st, ?_, Or.inl (by omega)⟩
        simp only [pruneLoop]
        rw [if_neg hg]

theorem pruneIfGreater_ok (st : IPT) (limit : Nat) (st2 : IPT)
    (h : pruneIfGreaterOp st limit = .ok st2) :
    st2.root.sum = st.root.sum ∧
    st2.maxnodes = st.maxnodes ∧
    st2.addrbytes = st.addrbytes ∧
    (st.root.count = st.nodes + 1 → st2.root.count = st2.nodes + 1) ∧
    (CacheWF st.addrbytes st.root st.cache →
      CacheWF st.addrbytes st2.root st2.cache) ∧
    (st.root.allWf = true → st2.root.allWf = true) := by
  unfold pruneIfGreaterOp at h
  by_cases hg : st.maxnodes ≤ st.nodes
  · rw [if_pos hg] at h
    exact pruneLoop_ok _ _ _ h
  · rw [if_neg hg] at h
    injection h with h; subst h
    exact ⟨rfl, rfl, rfl, fun h => h, fun h => h, fun h => h⟩

theorem pruneIfGreater_bound (st : IPT) (limit : Nat)
    (hc : st.root.count = st.nodes + 1)
    (hw : st.root.allWf = true ∨ st.nodes = 0) :
    ∃ st2, pruneIfGreaterOp st limit = .ok st2 ∧
      st2.maxnodes = st.maxnodes ∧
      (st.maxnodes ≤ st.nodes →
        (st2.nodes ≤ st.maxnodes * 9 / 10 ∨ st2.nodes = 0)) ∧
      (¬ st.maxnodes ≤ st.nodes → st2 = st) := by
  by_cases hg : st.maxnodes ≤ st.nodes
  · obtain ⟨st2, hl, hb⟩ := pruneLoop_bound (st.nodes + 1) st hc hw (by omega)
    have hmax := (pruneLoop_ok _ _ _ hl).2.1
    refine ⟨st2, ?_, hmax, fun _ => hb, fun hne => absurd hg hne⟩
    unfold pruneIfGreaterOp
    rw [if_pos hg]
    exact hl
  · refine ⟨st, ?_, rfl, fun hx => absurd hx hg, fun _ => rfl⟩
    unfold pruneIfGreaterOp
    rw [if_neg hg]


theorem pruneIfGreater_wfdisj (st : IPT) (limit : Nat) (st2 : IPT)
    (h : pruneIfGreaterOp st limit = .ok st2) (hw : WfDisj st) : WfDisj st2 := by
  rcases hw with hw | ⟨hw1, hw2⟩
  · exact Or.inl ((pruneIfGreater_ok st limit st2 h).2.2.2.2.2 hw)
  · unfold pruneIfGreaterOp at h
    by_cases hg : st.maxnodes ≤ st.nodes
    · rw [if_pos hg, pruneLoop_zero _ _ hw2] at h
      injection h with h; subst h
      exact Or.inr ⟨hw1, hw2⟩
    · rw [if_neg hg] at h
      injection h with h; subst h
      exact Or.inr ⟨hw1, hw2⟩

theorem incrAt_count (p : List Bool) : ∀ (n : Node) (v : Nat),
    (incrAt n p v).count = n.count := by
  induction p with
  | nil =>
      intro n v
      cases n with
      | mk t c0 c1 => simp [incrAt, count_mk]
  | cons b p ih =>
      intro n v
      cases n with
      | mk t c0 c1 =>
          cases b <;> cases c0 <;> cases c1 <;>
            simp [incrAt, count_mk, ocount, ih]

theorem find_leaf (t : Nat) (q : List Bool) (m : Node)
    (h : (Node.mk t none none).find q = some m) : q = [] := by
  cases q with
  | nil => rfl
  | cons b q' => cases b <;> simp [find_cons_false, find_cons_true] at h

/-!
## The `add` operation preserves the invariants
-/

theorem addOp_ok (st : IPT) (addr : List Nat) (addrlen v : Nat) (st2 : IPT)
    (hbytes : ∀ x ∈ addr, x < 256)
    (hlen : min addrlen st.addrbytes ≤ addr.length)
    (hc : st.root.count = st.nodes + 1)
    (hcwf : CacheWF st.addrbytes st.root st.cache)
    (h : addOp st addr addrlen v = .ok st2) :
    st2.root.sum = st.root.sum + v ∧
    st2.root.count = st2.nodes + 1 ∧
    CacheWF st2.addrbytes st2.root st2.cache ∧
    st2.maxnodes = st.maxnodes ∧
    st2.addrbytes = st.addrbytes ∧
    (0 < v → WfDisj st → WfDisj st2) := by
  unfold addOp at h
  cases hpg : pruneIfGreaterOp st st.maxnodes with
  | error e => rw [hpg] at h; exact absurd h (by simp)
  | ok st1 =>
      rw [hpg] at h
      simp only at h
      obtain ⟨hsum1, hmax1, hab1, hcnt1, hcwf1, hwf1⟩ :=
        pruneIfGreater_ok st st.maxnodes st1 hpg
      have hc1 := hcnt1 hc
      have hcwf1b := hcwf1 hcwf
      rw [← hab1] at hcwf1b
      have hwd1 : WfDisj st → WfDisj st1 := pruneIfGreater_wfdisj st st.maxnodes st1 hpg
      have hlenL : (if addrlen > st1.addrbytes then st1.addrbytes else addrlen) ≤
          addr.length := by
        rw [hab1]
        rcases Nat.lt_or_ge st.addrbytes addrlen with h2 | h2
        · rw [if_pos h2]; omega
        · rw [if_neg (by omega)]; omega
      have hlenAB : (if addrlen > st1.addrbytes then st1.addrbytes else addrlen) ≤
          st1.addrbytes := by
        rcases Nat.lt_or_ge st1.addrbytes addrlen with h2 | h2
        · rw [if_pos h2]
        · rw [if_neg (by omega)]; omega
      cases hcs : cacheSearch st1.cache addr
          (if addrlen > st1.addrbytes then st1.addrbytes else addrlen) with
      | some e =>
          rw [hcs] at h
          simp only at h
          injection h with h; subst h
          obtain ⟨hmem, hsome, htake⟩ := cacheSearch_some _ _ _ _ hcs
          obtain ⟨p, hp⟩ := Option.isSome_iff_exists.mp hsome
          obtain ⟨hnd1, hby1, hpt1⟩ := hcwf1b
          obtain ⟨hbp, hfind⟩ := hpt1 e hmem p hp
          have hgetD : e.ptr.getD [] = p := by rw [hp]; rfl
          rw [hgetD]
          refine ⟨?_, ?_, ?_, hmax1, hab1, ?_⟩
          · simp only
            rw [incrAt_sum p st1.root v hfind, hsum1]
          · simp only
            rw [incrAt_count p st1.root v]
            exact hc1
          · simp only
            refine ⟨hnd1, hby1, ?_⟩
            intro e2 he2 q hq
            obtain ⟨hq1, hq2⟩ := hpt1 e2 he2 q hq
            exact ⟨hq1, by rw [incrAt_keeps p st1.root v q]; exact hq2⟩
          · intro hv hwd
            rcases hwd1 hwd with hw | ⟨hw1, hw2⟩
            · exact Or.inl (by simp only; exact incrAt_allWf p st1.root v hw)
            · rw [hw1] at hfind
              have hpnil : p = [] := by
                cases hfp : (Node.mk 0 none none).find p with
                | none => rw [hfp] at hfind; simp at hfind
                | some m => exact find_leaf 0 p m hfp
              subst hpnil
              left
              simp only
              rw [hw1]
              simp [incrAt, Node.allWf]
              omega
      | none =>
          rw [hcs] at h
          simp only at h
          injection h with h; subst h
          obtain ⟨hnd1, hby1, hpt1⟩ := hcwf1b
          have hwsum := walkAdd_sum (bitPath addr
            ((if addrlen > st1.addrbytes then st1.addrbytes else addrlen) * 8)) st1.root v
          have hwcount := walkAdd_count (bitPath addr
            ((if addrlen > st1.addrbytes then st1.addrbytes else addrlen) * 8)) st1.root v
          refine ⟨?_, ?_, ?_, ?_, ?_, ?_⟩
          · simp only [cacheReplace]
            rw [hwsum, hsum1]
          · simp only [cacheReplace]
            rw [hwcount]
            omega
          · constructor
            · -- Nodup after the round-robin replacement
              simp only [cacheReplace]
              apply set_nodup _ _ _ _ hnd1
              intro hocc
              rw [occPaths_mem] at hocc
              obtain ⟨e, hmem, hep⟩ := hocc
              obtain ⟨hbp, -⟩ := hpt1 e hmem _ hep
              rw [bitPath_length] at hbp
              have htk := take_eq_of_bitPath e.addr addr
                (if addrlen > st1.addrbytes then st1.addrbytes else addrlen)
                (by rw [(hby1 e hmem).1]; exact hlenAB) hlenL
                (fun x hx => (hby1 e hmem).2 x hx) hbytes (Eq.symm hbp)
              exact cacheSearch_none _ _ _ hcs e hmem
                (by rw [hep]; rfl) htk
            constructor
            · -- slot key length and byte bounds
              intro e2 he2
              simp only [cacheReplace] at he2
              rcases List.mem_or_eq_of_mem_set he2 with he2 | he2
              · exact hby1 e2 he2
              · subst he2
                simp only
                by_cases hL : st1.cache.length = 0
                · exfalso
                  rw [List.length_eq_zero] at hL
                  rw [hL] at he2
                  simp at he2
                · have hnext : (if st1.cachenext + 1 ≥ st1.cache.length then 0
                      else st1.cachenext + 1) < st1.cache.length := by
                    split <;> omega
                  have hold : st1.cache.getD (if st1.cachenext + 1 ≥ st1.cache.length
                      then 0 else st1.cachenext + 1) ⟨[], none⟩ ∈ st1.cache := by
                    rw [List.getD_eq_getElem?_getD, List.getElem?_eq_getElem hnext]
                    exact List.getElem_mem hnext
                  constructor
                  · simp only [cacheReplace]
                    rw [List.length_append, List.length_take, List.length_drop]
                    rw [(hby1 _ hold).1]
                    omega
                  · intro x hx
                    rcases List.mem_append.mp hx with hx | hx
                    · exact hbytes x (List.mem_of_mem_take hx)
                    · exact (hby1 _ hold).2 x (List.mem_of_mem_drop hx)
            · -- occupied slots: key path identity and liveness
              intro e2 he2 q hq
              simp only [cacheReplace] at he2
              rcases List.mem_or_eq_of_mem_set he2 with he2 | he2
              · obtain ⟨hq1, hq2⟩ := hpt1 e2 he2 q hq
                refine ⟨hq1, ?_⟩
                simp only [cacheReplace]
                exact walkAdd_keeps _ st1.root v q hq2
              · subst he2
                simp only at hq
                injection hq with hq
                subst hq
                constructor
                · rw [bitPath_length]
                  rw [bitPath_take_append addr _ _ hlenL _ (by omega)]
                · simp only [cacheReplace]
                  exact walkAdd_self _ st1.root v
          · simp only [cacheReplace]
            exact hmax1
          · simp only [cacheReplace]
            exact hab1
          · intro hv hwd
            left
            simp only [cacheReplace]
            apply walkAdd_allWf _ st1.root v hv
            rcases hwd1 hwd with hw | ⟨hw1, -⟩
            · exact Or.inl hw
            · exact Or.inr hw1

/-!
## Executing call sequences
-/


theorem runOp_ok (st : IPT) (op : Op) (st2 : IPT)
    (hv : ValidOp st.addrbytes op)
    (hc : st.root.count = st.nodes + 1)
    (hcwf : CacheWF st.addrbytes st.root st.cache)
    (h : runOp st op = .ok st2) :
    st2.root.sum = st.root.sum + opWeight op ∧
    st2.root.count = st2.nodes + 1 ∧
    CacheWF st2.addrbytes st2.root st2.cache ∧
    st2.maxnodes = st.maxnodes ∧
    st2.addrbytes = st.addrbytes ∧
    (PosW op → WfDisj st → WfDisj st2) := by
  cases op with
  | add a l v =>
      obtain ⟨hb, hl⟩ := hv
      have := addOp_ok st a l v st2 hb hl hc hcwf h
      exact ⟨this.1, this.2.1, this.2.2.1, this.2.2.2.1, this.2.2.2.2.1,
        fun hp => this.2.2.2.2.2 hp⟩
  | prune =>
      simp only [runOp] at h
      cases hp : pruneStep st with
      | error e => rw [hp] at h; exact absurd h (by simp [Except.map])
      | ok pr =>
          obtain ⟨st1, r⟩ := pr
          rw [hp] at h
          simp only [Except.map] at h
          injection h with h; subst h
          obtain ⟨hsum, hmax, hab, hcnt, hcwf2, hwf, -⟩ := pruneStep_ok st st1 r hp
          refine ⟨by rw [hsum]; simp [opWeight], hcnt hc, ?_, hmax, hab, ?_⟩
          · rw [hab]; exact hcwf2 hcwf
          · intro hpw hwd
            rcases hwd with hw | ⟨hw1, hw2⟩
            · exact Or.inl (hwf hw)
            · exfalso
              unfold pruneStep at hp
              rw [hw1] at hp
              simp [Node.term, bestToPrune] at hp
  | pruneIfGreater l =>
      simp only [runOp] at h
      obtain ⟨hsum, hmax, hab, hcnt, hcwf2, hwf⟩ := pruneIfGreater_ok st l st2 h
      refine ⟨by rw [hsum]; simp [opWeight], hcnt hc, ?_, hmax, hab, ?_⟩
      · rw [hab]; exact hcwf2 hcwf
      · intro hpw hwd
        exact pruneIfGreater_wfdisj st l st2 h hwd

theorem run_ok (ops : List Op) : ∀ (st st2 : IPT),
    (∀ op ∈ ops, ValidOp st.addrbytes op) →
    st.root.count = st.nodes + 1 →
    CacheWF st.addrbytes st.root st.cache →
    run st ops = .ok st2 →
    st2.root.sum = st.root.sum + (ops.map opWeight).sum ∧
    st2.root.count = st2.nodes + 1 ∧
    CacheWF st2.addrbytes st2.root st2.cache ∧
    st2.maxnodes = st.maxnodes ∧
    st2.addrbytes = st.addrbytes ∧
    ((∀ op ∈ ops, PosW op) → WfDisj st → WfDisj st2) := by
  induction ops with
  | nil =>
      intro st st2 hv hc hcwf h
      simp only [run] at h
      injection h with h; subst h
      exact ⟨by simp, hc, hcwf, rfl, rfl, fun _ h => h⟩
  | cons op ops ih =>
      intro st st2 hv hc hcwf h
      simp only [run] at h
      cases h1 : runOp st op with
      | error e => rw [h1] at h; exact absurd h (by simp)
      | ok st1 =>
          rw [h1] at h
          simp only at h
          obtain ⟨hsum, hcnt, hcwf1, hmax, hab, hwd⟩ :=
            runOp_ok st op st1 (hv op (List.mem_cons_self _ _)) hc hcwf h1
          obtain ⟨i1, i2, i3, i4, i5, i6⟩ := ih st1 st2
            (by
              intro o ho
              rw [hab]
              exact hv o (List.mem_cons_of_mem _ ho))
            hcnt hcwf1 h
          refine ⟨?_, i2, i3, by rw [i4, hmax], by rw [i5, hab], ?_⟩
          · rw [i1, hsum]
            simp [List.map_cons, List.sum_cons]
            omega
          · intro hp hw
            exact i6 (fun o ho => hp o (List.mem_cons_of_mem _ ho))
              (hwd (hp op (List.mem_cons_self _ _)) hw)

theorem iptInit_count (ab maxn : Nat) :
    (iptInit ab maxn).root.count = (iptInit ab maxn).nodes + 1 := by
  simp [iptInit, Node.count]

theorem iptInit_sum (ab maxn : Nat) : (iptInit ab maxn).root.sum = 0 := by
  simp [iptInit, Node.sum]

theorem iptInit_cwf (ab maxn : Nat) :
    CacheWF (iptInit ab maxn).addrbytes (iptInit ab maxn).root
      (iptInit ab maxn).cache := by
  refine ⟨?_, ?_, ?_⟩
  · simp [iptInit, occPaths, List.replicate, List.filterMap]
  · intro e he
    simp only [iptInit] at he
    have := List.eq_of_mem_replicate he
    subst this
    constructor
    · simp [iptInit]
    · intro x hx
      have := List.eq_of_mem_replicate hx
      subst this
      omega
  · intro e he p hp
    simp only [iptInit] at he
    have := List.eq_of_mem_replicate he
    subst this
    simp at hp

/-- C1: conservation of totals.  For every sequence of `add(addr, len,
w)` calls interleaved with any number of `prune()` and
`prune_if_greater()` calls that runs to completion, the tree's `sum()`
(the recursive subtree sum of the root) equals the sum of all weights
supplied to `add`. -/
theorem conservation_of_totals (ab maxn : Nat) (ops : List Op) (st : IPT)
    (hv : ∀ op ∈ ops, ValidOp ab op)
    (h : run (iptInit ab maxn) ops = .ok st) :
    st.root.sum = (ops.map opWeight).sum := by
  have h1 := run_ok ops (iptInit ab maxn) st
    (by intro op hop; exact hv op hop)
    (iptInit_count ab maxn) (iptInit_cwf ab maxn) h
  rw [h1.1, iptInit_sum]
  omega

/-- Witness for C1: a concrete four-call sequence with interleaved
prunes sums to 5. -/
theorem conservation_of_totals_witness :
    ∃ st, run (iptInit 16 100)
      [Op.add [1, 2, 3, 4] 4 3, Op.prune, Op.add [1, 2, 3, 4] 4 2,
       Op.pruneIfGreater 5] = .ok st ∧ st.root.sum = 5 := by
  have hok : isOkB (run (iptInit 16 100)
      [Op.add [1, 2, 3, 4] 4 3, Op.prune, Op.add [1, 2, 3, 4] 4 2,
       Op.pruneIfGreater 5]) = true := by decide
  cases hr : run (iptInit 16 100)
      [Op.add [1, 2, 3, 4] 4 3, Op.prune, Op.add [1, 2, 3, 4] 4 2,
       Op.pruneIfGreater 5] with
  | error e => rw [hr] at hok; simp [isOkB] at hok
  | ok st =>
      refine ⟨st, rfl, ?_⟩
      have := conservation_of_totals 16 100 _ st
        (by
          intro op hop
          simp only [List.mem_cons] at hop
          rcases hop with rfl | rfl | rfl | rfl | h2
          · exact ⟨by decide, by decide⟩
          · exact trivial
          · exact ⟨by decide, by decide⟩
          · exact trivial
          · simp at h2)
        hr
      rw [this]
      decide


/-- C2 counterexample: `prune_if_greater(limit)` ignores its argument
(the source reads `maxnodes` in both the entry test and the loop bound).
With `maxnodes = 100`, two distinct keys and 58 live nodes,
`prune_if_greater(6)` returns with `size() = 58 > 6` although
`node_count = 58 ≥ 6`. -/
theorem prune_if_greater_ignores_limit_cex :
    nodesOf (run (iptInit 16 100)
      [Op.add [1, 0, 0, 0] 4 1, Op.add [2, 0, 0, 0] 4 1,
       Op.pruneIfGreater 6]) = some 58 ∧
    ¬ (58 : Nat) ≤ 6 := by
  exact ⟨by decide, by decide⟩

/-- C2 amended: `prune_if_greater` is governed by the `maxnodes` field,
not by its `limit` parameter.  If `node_count ≥ maxnodes` it repeatedly
prunes until `node_count ≤ ⌊9·maxnodes/10⌋` or the tree has collapsed to
the bare root, and on return `size() ≤ maxnodes`; otherwise it does
nothing. -/
theorem prune_if_greater_bounds_size (st : IPT) (L : Nat)
    (hc : st.root.count = st.nodes + 1)
    (hw : st.root.allWf = true ∨ st.nodes = 0) :
    ∃ st2, pruneIfGreaterOp st L = .ok st2 ∧
      (st.maxnodes ≤ st.nodes →
        (st2.nodes ≤ st.maxnodes * 9 / 10 ∨ st2.nodes = 0) ∧
        st2.nodes ≤ st.maxnodes) ∧
      (¬ st.maxnodes ≤ st.nodes → st2 = st) := by
  obtain ⟨st2, h1, hmax, h2, h3⟩ := pruneIfGreater_bound st L hc hw
  refine ⟨st2, h1, ?_, h3⟩
  intro hg
  have hb := h2 hg
  have hd : st.maxnodes * 9 / 10 ≤ st.maxnodes := by omega
  exact ⟨hb, by omega⟩


/-- Witness for the amended C2: a reachable 58-node state over
`maxnodes = 40`. -/
theorem prune_if_greater_bounds_size_witness :
    ∃ st, run (iptInit 16 40)
      [Op.add [1, 0, 0, 0] 4 1, Op.add [2, 0, 0, 0] 4 1] = .ok st ∧
      ∃ st2, pruneIfGreaterOp st 6 = .ok st2 ∧
        (st.maxnodes ≤ st.nodes →
          (st2.nodes ≤ st.maxnodes * 9 / 10 ∨ st2.nodes = 0) ∧
          st2.nodes ≤ st.maxnodes) ∧
        (¬ st.maxnodes ≤ st.nodes → st2 = st) := by
  have h2 : countInvOf (run (iptInit 16 40)
      [Op.add [1, 0, 0, 0] 4 1, Op.add [2, 0, 0, 0] 4 1]) = true := by decide
  have h3 : allWfOf (run (iptInit 16 40)
      [Op.add [1, 0, 0, 0] 4 1, Op.add [2, 0, 0, 0] 4 1]) = true := by decide
  cases hr : run (iptInit 16 40)
      [Op.add [1, 0, 0, 0] 4 1, Op.add [2, 0, 0, 0] 4 1] with
  | error e => rw [hr] at h2; simp [countInvOf] at h2
  | ok st =>
      rw [hr] at h2 h3
      simp only [countInvOf, beq_iff_eq] at h2
      simp only [allWfOf] at h3
      exact ⟨st, rfl, prune_if_greater_bounds_size st 6 h2 (Or.inl h3)⟩

/-- C10: `prune()` on a freshly constructed tree is NOT safe: the root
is non-terminal (`tsum = 0`) yet childless, so `best_to_prune` falls
through its cases and dereferences the null `ptr0` at iptree.h line 150
(modelled as `Except.error ()`) instead of returning 0. -/
theorem empty_tree_prune_crash :
    pruneStep (iptInit 16 1000) = .error () ∧
    (iptInit 16 1000).root.term = false := by
  constructor
  · rfl
  · decide

/-- C8 counterexample: `10.0.0.1` and `10.0.0.2` differ in bits 30 and
31, so they have no common depth-31 parent; after the forced prune no
node holds a local count of 101. -/
theorem prune_scenario_cex :
    hasTsumOf 101 (run (iptInit 16 10000)
      [Op.add [10, 0, 0, 1] 4 100, Op.add [10, 0, 0, 2] 4 1, Op.prune]) = false ∧
    bitPath [10, 0, 0, 1] 31 ≠ bitPath [10, 0, 0, 2] 31 := by
  exact ⟨by decide, by decide⟩

/-- C8 amended: the two keys diverge at bit 30, so the selector picks
the lighter branch: the single prune collapses the `10.0.0.2` leaf into
its own depth-31 parent, whose local count becomes 1 (not 101); the
`10.0.0.1` leaf keeps its 100 and the total stays 101. -/
theorem prune_scenario_amended :
    nodesumAtOf (bitPath [10, 0, 0, 2] 31) (run (iptInit 16 10000)
      [Op.add [10, 0, 0, 1] 4 100, Op.add [10, 0, 0, 2] 4 1, Op.prune]) = some 1 ∧
    childrenAtOf (bitPath [10, 0, 0, 2] 31) (run (iptInit 16 10000)
      [Op.add [10, 0, 0, 1] 4 100, Op.add [10, 0, 0, 2] 4 1, Op.prune]) = some 0 ∧
    nodesumAtOf (bitPath [10, 0, 0, 1] 32) (run (iptInit 16 10000)
      [Op.add [10, 0, 0, 1] 4 100, Op.add [10, 0, 0, 2] 4 1, Op.prune]) = some 100 ∧
    rootSumOf (run (iptInit 16 10000)
      [Op.add [10, 0, 0, 1] 4 100, Op.add [10, 0, 0, 2] 4 1, Op.prune]) = some 101 := by
  exact ⟨by decide, by decide, by decide, by decide⟩

/-- C6 counterexample: after `add([1,0,0,0], 4, 1)` the cache holds one
node; `add(addr, 0, 5)` then calls `memcmp(..., 0)`, which matches that
slot, so the 5 is applied to the cached depth-32 node, not the root:
the root's own count stays 0 while the tree total is 6. -/
theorem zero_length_add_cache_hit_cex :
    rootNodesumOf (run (iptInit 16 1000)
      [Op.add [1, 0, 0, 0] 4 1, Op.add [] 0 5]) = some 0 ∧
    rootSumOf (run (iptInit 16 1000)
      [Op.add [1, 0, 0, 0] 4 1, Op.add [] 0 5]) = some 6 := by
  exact ⟨by decide, by decide⟩

theorem cacheSearch_all_none (c : List CacheEl) (q : List Nat) (len : Nat)
    (hall : ∀ e ∈ c, e.ptr = none) : cacheSearch c q len = none := by
  induction c with
  | nil => rfl
  | cons e rest ih =>
      have he := hall e (List.mem_cons_self _ _)
      simp only [cacheSearch, he]
      simp only [Option.isSome_none, Bool.false_and, Bool.false_eq_true, if_false]
      exact ih (fun e2 h2 => hall e2 (List.mem_cons_of_mem _ h2))

theorem foldRemove_none (ds : List (List Bool)) (c : List CacheEl)
    (hall : ∀ e ∈ c, e.ptr = none) :
    ∀ e2 ∈ ds.foldl (fun c2 p => cacheRemove c2 p) c, e2.ptr = none := by
  intro e2 h2
  obtain ⟨e, he, -, hp⟩ := foldRemove_slots ds c e2 h2
  rcases hp with hp | hp
  · rw [hp]; exact hall e he
  · exact hp

theorem pruneStep_none (st st2 : IPT) (r : Nat) (h : pruneStep st = .ok (st2, r))
    (hall : ∀ e ∈ st.cache, e.ptr = none) : ∀ e ∈ st2.cache, e.ptr = none := by
  unfold pruneStep at h
  by_cases ht : st.root.term = true
  · rw [if_pos ht] at h
    injection h with h
    injection h with h1 h2
    subst h1
    exact hall
  · rw [if_neg ht] at h
    cases hb : bestToPrune st.root 0 with
    | error e => rw [hb] at h; exact absurd h (by simp)
    | ok pd =>
        rw [hb] at h
        simp only at h
        injection h with h
        injection h with h1 h2
        subst h1
        exact foldRemove_none _ _ hall

theorem pruneLoop_none (f : Nat) : ∀ (st st2 : IPT), pruneLoop f st = .ok st2 →
    (∀ e ∈ st.cache, e.ptr = none) → ∀ e ∈ st2.cache, e.ptr = none := by
  induction f with
  | zero =>
      intro st st2 h hall
      simp only [pruneLoop] at h
      injection h with h; subst h
      exact hall
  | succ f ih =>
      intro st st2 h hall
      simp only [pruneLoop] at h
      by_cases hg : st.maxnodes * 9 / 10 < st.nodes
      · rw [if_pos hg] at h
        cases hp : pruneStep st with
        | error e => rw [hp] at h; exact absurd h (by simp)
        | ok pr =>
            obtain ⟨st1, r⟩ := pr
            rw [hp] at h
            simp only at h
            have hall1 := pruneStep_none st st1 r hp hall
            by_cases hr : r = 0
            · rw [if_pos hr] at h
              injection h with h; subst h
              exact hall1
            · rw [if_neg hr] at h
              exact ih st1 st2 h hall1
      · rw [if_neg hg] at h
        injection h with h; subst h
        exact hall

theorem pruneIfGreater_none (st : IPT) (limit : Nat) (st2 : IPT)
    (h : pruneIfGreaterOp st limit = .ok st2)
    (hall : ∀ e ∈ st.cache, e.ptr = none) : ∀ e ∈ st2.cache, e.ptr = none := by
  unfold pruneIfGreaterOp at h
  by_cases hg : st.maxnodes ≤ st.nodes
  · rw [if_pos hg] at h
    exact pruneLoop_none _ _ _ h hall
  · rw [if_neg hg] at h
    injection h with h; subst h
    exact hall

theorem walkAdd_nil_nodesum (n : Node) (v : Nat) :
    ((walkAdd n [] v).1).nodesum = n.nodesum + v := by
  cases n with
  | mk t c0 c1 => simp [walkAdd, Node.nodesum]

/-- C6 amended: `add(addr, 0, w)` applies the increment at the root
provided every cache slot is empty (as on a fresh tree); with a
non-empty cache the zero-length `memcmp` matches the first occupied
slot and the increment lands on that cached node instead. -/
theorem zero_length_add_empty_cache (st : IPT) (addr : List Nat) (v : Nat)
    (st2 : IPT) (hall : ∀ e ∈ st.cache, e.ptr = none)
    (h : addOp st addr 0 v = .ok st2) :
    ∃ st1, pruneIfGreaterOp st st.maxnodes = .ok st1 ∧
      st2.root.nodesum = st1.root.nodesum + v := by
  unfold addOp at h
  cases hpg : pruneIfGreaterOp st st.maxnodes with
  | error e => rw [hpg] at h; exact absurd h (by simp)
  | ok st1 =>
      rw [hpg] at h
      simp only at h
      have hall1 := pruneIfGreater_none st st.maxnodes st1 hpg hall
      have hlen : (if 0 > st1.addrbytes then st1.addrbytes else 0) = 0 := by
        rw [if_neg (by omega)]
      rw [hlen] at h
      rw [cacheSearch_all_none st1.cache addr 0 hall1] at h
      simp only at h
      injection h with h
      subst h
      refine ⟨st1, rfl, ?_⟩
      simp only [cacheReplace]
      have : bitPath addr 0 = [] := by simp [bitPath]
      rw [this]
      exact walkAdd_nil_nodesum st1.root v

/-- Witness for the amended C6: on a fresh tree `add(addr, 0, 5)` puts
the 5 on the root. -/
theorem zero_length_add_empty_cache_witness :
    ∃ st2, addOp (iptInit 16 10) [] 0 5 = .ok st2 ∧
      ∃ st1, pruneIfGreaterOp (iptInit 16 10) (iptInit 16 10).maxnodes = .ok st1 ∧
        st2.root.nodesum = st1.root.nodesum + 5 := by
  have hok : isOkB (addOp (iptInit 16 10) [] 0 5) = true := by decide
  cases hr : addOp (iptInit 16 10) [] 0 5 with
  | error e => rw [hr] at hok; simp [isOkB] at hok
  | ok st2 =>
      exact ⟨st2, rfl,
        zero_length_add_empty_cache (iptInit 16 10) [] 5 st2 (by decide) hr⟩

/-!
## Histogram totality
-/


theorem histSum_append (h : List AddrElem) (e : AddrElem) :
    histSum (h ++ [e]) = histSum h + e.count := by
  simp [histSum]

theorem histSum_push (h : List AddrElem) (addr : List Nat) (d t : Nat) :
    histSum (if t ≠ 0 then h ++ [⟨addr, d, t⟩] else h) = histSum h + t := by
  by_cases ht : t = 0
  · rw [if_neg (by omega)]
    omega
  · rw [if_pos ht]
    rw [histSum_append]

theorem getHist_sum : ∀ (n : Node) (ab d : Nat) (addr : List Nat)
    (h : List AddrElem),
    histSum (getHist ab d addr n h) = histSum h + clipSum d n
  | .mk t none none, ab, d, addr, h => by
      simp only [getHist]
      rw [histSum_push]
      simp [clipSum]
  | .mk t (some a) none, ab, d, addr, h => by
      simp only [getHist]
      by_cases hd : d > max_histogram_depth
      · rw [if_pos hd, histSum_push]
        simp [clipSum, hd]
      · rw [if_neg hd]
        rw [getHist_sum a ab (d + 1) _ _]
        rw [histSum_push]
        simp [clipSum, hd]
        omega
  | .mk t none (some b), ab, d, addr, h => by
      simp only [getHist]
      by_cases hd : d > max_histogram_depth
      · rw [if_pos hd, histSum_push]
        simp [clipSum, hd]
      · rw [if_neg hd]
        rw [getHist_sum b ab (d + 1) _ _]
        rw [histSum_push]
        simp [clipSum, hd]
        omega
  | .mk t (some a) (some b), ab, d, addr, h => by
      simp only [getHist]
      by_cases hd : d > max_histogram_depth
      · rw [if_pos hd, histSum_push]
        simp [clipSum, hd]
      · rw [if_neg hd]
        rw [getHist_sum b ab (d + 1) _ _]
        rw [getHist_sum a ab (d + 1) _ _]
        rw [histSum_push]
        simp [clipSum, hd]
        omega

theorem clipSum_eq_sum : ∀ (n : Node) (d : Nat), d + n.height ≤ 129 →
    clipSum d n = n.sum
  | .mk t none none, d, _ => by simp [clipSum, Node.sum]
  | .mk t (some a) none, d, h => by
      have hh : (Node.mk t (some a) none).height = a.height + 1 := by
        simp [Node.height]
      rw [hh] at h
      have hd : ¬ d > max_histogram_depth := by
        simp only [max_histogram_depth]
        omega
      simp only [clipSum, Node.sum]
      rw [if_neg hd, clipSum_eq_sum a (d + 1) (by omega)]
  | .mk t none (some b), d, h => by
      have hh : (Node.mk t none (some b)).height = b.height + 1 := by
        simp [Node.height]
      rw [hh] at h
      have hd : ¬ d > max_histogram_depth := by
        simp only [max_histogram_depth]
        omega
      simp only [clipSum, Node.sum]
      rw [if_neg hd, clipSum_eq_sum b (d + 1) (by omega)]
  | .mk t (some a) (some b), d, h => by
      have hh : (Node.mk t (some a) (some b)).height = max a.height b.height + 1 := by
        simp [Node.height]
      rw [hh] at h
      have hd : ¬ d > max_histogram_depth := by
        simp only [max_histogram_depth]
        omega
      simp only [clipSum, Node.sum]
      rw [if_neg hd, clipSum_eq_sum a (d + 1) (by omega),
        clipSum_eq_sum b (d + 1) (by omega)]
      omega

/-- C5 amended: histogram totality holds for every tree of height at
most 129 bits: in particular always for the base 16-byte tree, whose
keys are at most 128 bits.  (The pair tree violates it: nodes below the
`max_histogram_depth` cap are skipped, see the counterexample.) -/
theorem histogram_totality_bounded (ab : Nat) (n : Node) (hh : n.height ≤ 129) :
    histSum (getHistogram ab n) = n.sum := by
  unfold getHistogram
  rw [getHist_sum n ab 0 _ _]
  have h0 : histSum [] = 0 := by simp [histSum]
  rw [h0]
  have := clipSum_eq_sum n 0 (by omega)
  omega

/-- Witness for the amended C5: a 32-deep base-tree key. -/
theorem histogram_totality_bounded_witness :
    ((walkAdd (Node.mk 0 none none) (bitPath [1, 2, 3, 4] 32) 7).1).height ≤ 129 ∧
    histSum (getHistogram 16 (walkAdd (Node.mk 0 none none)
      (bitPath [1, 2, 3, 4] 32) 7).1) =
      ((walkAdd (Node.mk 0 none none) (bitPath [1, 2, 3, 4] 32) 7).1).sum := by
  refine ⟨by decide, ?_⟩
  exact histogram_totality_bounded 16 _ (by decide)

set_option maxRecDepth 10000 in
/-- C5 counterexample: a pair-tree state (a 17-byte key inserted into
the 32-byte-wide tree) has its weight at depth 136, below the histogram
depth cap of 128, so the histogram counts sum to 0 while `sum()` is 5. -/
theorem histogram_depth_cap_cex :
    histSumOf 32 (run (iptInit 32 100000)
      [Op.add (List.replicate 17 0) 17 5]) = some 0 ∧
    rootSumOf (run (iptInit 32 100000)
      [Op.add (List.replicate 17 0) 17 5]) = some 5 := by
  exact ⟨by decide, by decide⟩

/-- C9 counterexample: at depth 33 on an IPv4-classified address the
code appends no suffix although 33 differs from the family width 32
(the source tests `depth < 32`, not `depth ≠ 32`; depth-33 IPv4
histogram entries arise from 16-byte keys whose bytes 4..15 are 0). -/
theorem ipstr_suffix_cex :
    ipstr (List.replicate 16 0) 16 33 = ipv4 (List.replicate 16 0) ∧
    (33 : Nat) ≠ 32 := by
  exact ⟨by decide, by decide⟩

/-- C9 amended: `ipstr` appends the suffix `"/d"` exactly when `d` is
strictly below the family's full width (32 for IPv4, 128 for IPv6); at
or above the width the bare address is returned. -/
theorem ipstr_suffix_rule (addr : List Nat) (addrlen d : Nat) :
    (isipv4 addr addrlen = true →
      (d < 32 → ipstr addr addrlen d = ipv4 addr ++ ("/" ++ itos d)) ∧
      (32 ≤ d → ipstr addr addrlen d = ipv4 addr)) ∧
    (isipv4 addr addrlen = false →
      (d < 128 → ipstr addr addrlen d = ipv6 addr ++ ("/" ++ itos d)) ∧
      (128 ≤ d → ipstr addr addrlen d = ipv6 addr)) := by
  constructor
  · intro hip
    constructor
    · intro hd
      simp [ipstr, hip, ipv4_bits, hd]
    · intro hd
      simp [ipstr, hip, ipv4_bits, show ¬ d < 32 by omega]
  · intro hip
    constructor
    · intro hd
      simp [ipstr, hip, ipv6_bits, hd]
    · intro hd
      simp [ipstr, hip, ipv6_bits, show ¬ d < 128 by omega]

/-- Witness for the amended C9 at `1.2.3.4`, depths 31 and 32. -/
theorem ipstr_suffix_rule_witness :
    isipv4 [1, 2, 3, 4] 4 = true ∧
    ipstr [1, 2, 3, 4] 4 31 = ipv4 [1, 2, 3, 4] ++ ("/" ++ itos 31) ∧
    ipstr [1, 2, 3, 4] 4 32 = ipv4 [1, 2, 3, 4] := by
  refine ⟨by decide, ?_, ?_⟩
  · exact ((ipstr_suffix_rule [1, 2, 3, 4] 4 31).1 (by decide)).1 (by decide)
  · exact ((ipstr_suffix_rule [1, 2, 3, 4] 4 32).1 (by decide)).2 (by decide)


/-- C4: whenever `prune()` runs the selector on a non-terminal
(well-formed) root, the node it picks is a candidate — an interior node
all of whose present children are terminal — whose subtree sum is at
most the subtree sum of every candidate in the tree, and among
equal-sum candidates its depth is maximal (the selector prefers the
deeper one). -/
theorem prune_selector_minimality (n : Node) (hw : n.allWf = true)
    (ht : n.term = false) :
    ∃ p dep m, bestToPrune n 0 = .ok (p, dep) ∧ n.find p = some m ∧
      m.isCandidate = true ∧ dep = p.length ∧
      ∀ q mq, n.find q = some mq → mq.isCandidate = true →
        m.sum ≤ mq.sum ∧ (m.sum = mq.sum → q.length ≤ p.length) := by
  obtain ⟨⟨p, dep⟩, hpd⟩ := bestToPrune_total n 0 hw ht
  obtain ⟨m, hm, hc, hdep⟩ := bestToPrune_cand n 0 p dep hpd
  refine ⟨p, dep, m, hpd, hm, hc, by omega, ?_⟩
  intro q mq hq hcq
  have h2 := bestToPrune_min n 0 p dep hpd q mq hq hcq
  rw [sumAt_eq_sum n p m hm, sumAt_eq_sum n q mq hq] at h2
  exact h2

/-- Witness for C4: the tree holding `10.0.0.1 ↦ 100` and
`10.0.0.2 ↦ 1`. -/
theorem prune_selector_minimality_witness :
    ∃ st, run (iptInit 16 10000)
      [Op.add [10, 0, 0, 1] 4 100, Op.add [10, 0, 0, 2] 4 1] = .ok st ∧
      ∃ p dep m, bestToPrune st.root 0 = .ok (p, dep) ∧ st.root.find p = some m ∧
        m.isCandidate = true ∧ dep = p.length ∧
        ∀ q mq, st.root.find q = some mq → mq.isCandidate = true →
          m.sum ≤ mq.sum ∧ (m.sum = mq.sum → q.length ≤ p.length) := by
  have h3 : allWfOf (run (iptInit 16 10000)
      [Op.add [10, 0, 0, 1] 4 100, Op.add [10, 0, 0, 2] 4 1]) = true := by decide
  have h4 : rootTermOf (run (iptInit 16 10000)
      [Op.add [10, 0, 0, 1] 4 100, Op.add [10, 0, 0, 2] 4 1]) = false := by decide
  cases hr : run (iptInit 16 10000)
      [Op.add [10, 0, 0, 1] 4 100, Op.add [10, 0, 0, 2] 4 1] with
  | error e => rw [hr] at h3; simp [allWfOf] at h3
  | ok st =>
      rw [hr] at h3 h4
      simp only [allWfOf] at h3
      simp only [rootTermOf] at h4
      exact ⟨st, rfl, prune_selector_minimality st.root h3 h4⟩

/-!
## The pair tree: interleave / de-interleave round trip
-/

theorem setbit_length (a : List Nat) (j : Nat) : (setbit a j).length = a.length :=
  List.length_set a _ _

theorem bit_setbit (a : List Nat) (j i : Nat) :
    bit (setbit a j) i =
      (bit a i || (decide (i = j) && decide (j / 8 < a.length))) := by
  unfold bit setbit
  by_cases hj : j / 8 < a.length
  · by_cases hbyte : i / 8 = j / 8
    · rw [hbyte]
      rw [List.getD_eq_getElem?_getD, List.getElem?_set_eq_of_lt _ hj]
      simp only [Option.getD_some]
      rw [Nat.testBit_or]
      rw [Nat.one_shiftLeft, Nat.testBit_two_pow]
      have hiff : (7 - j % 8 = 7 - i % 8) ↔ (i = j) := by omega
      simp [hiff, hj]
    · rw [List.getD_eq_getElem?_getD, List.getElem?_set_ne (fun h => hbyte h.symm)]
      rw [← List.getD_eq_getElem?_getD]
      have hne : decide (i = j) = false := by
        simp only [decide_eq_false_iff_not]
        intro h
        exact hbyte (by rw [h])
      simp [hne]
  · rw [List.set_eq_of_length_le (by omega)]
    have : decide (j / 8 < a.length) = false := by simpa using hj
    simp [this]

theorem bit_csetbit (B : List Nat) (c : Bool) (j k : Nat) (hj : j / 8 < B.length) :
    bit (if c then setbit B j else B) k = (bit B k || (c && decide (k = j))) := by
  cases c
  · simp
  · simp only [if_pos]
    rw [bit_setbit]
    simp [hj, Bool.and_comm]

theorem bit_replicate_zero (n i : Nat) : bit (List.replicate n 0) i = false := by
  unfold bit
  have h0 : (List.replicate n 0).getD (i / 8) 0 = 0 := by
    rw [List.getD_eq_getElem?_getD, List.getElem?_replicate]
    split <;> rfl
  rw [h0]
  exact Nat.zero_testBit _

theorem setbit_bytes (a : List Nat) (j : Nat) (h : ∀ x ∈ a, x < 256) :
    ∀ x ∈ setbit a j, x < 256 := by
  intro x hx
  unfold setbit at hx
  by_cases hjl : j / 8 < a.length
  case neg =>
    rw [List.set_eq_of_length_le (by omega)] at hx
    exact h x hx
  rcases List.mem_or_eq_of_mem_set hx with hx | hx
  · exact h x hx
  · subst hx
    have h1 : a.getD (j / 8) 0 < 256 := by
      rw [List.getD_eq_getElem?_getD, List.getElem?_eq_getElem hjl]
      exact h _ (List.getElem_mem hjl)
    have h2 : (1 <<< (7 - j % 8)) < 256 := by
      rw [Nat.one_shiftLeft]
      calc (2 : Nat) ^ (7 - j % 8) ≤ 2 ^ 7 := Nat.pow_le_pow_right (by norm_num) (by omega)
        _ < 256 := by norm_num
    calc a.getD (j / 8) 0 ||| (1 <<< (7 - j % 8)) < 2 ^ 8 :=
          Nat.or_lt_two_pow (by simpa using h1) (by simpa using h2)
      _ = 256 := by norm_num

theorem csetbit_bytes (a : List Nat) (c : Bool) (j : Nat) (h : ∀ x ∈ a, x < 256) :
    ∀ x ∈ (if c then setbit a j else a), x < 256 := by
  cases c
  · simpa using h
  · simpa using setbit_bytes a j h

theorem csetbit_length (a : List Nat) (c : Bool) (j : Nat) :
    (if c then setbit a j else a).length = a.length := by
  cases c
  · simp
  · simp [setbit_length]

theorem interleave_aux (a1 a2 : List Nat) : ∀ (m : Nat), m ≤ 128 →
    (((List.range m).foldl
      (fun buf i =>
        let b1 := if bit a1 i then setbit buf (2 * i) else buf
        if bit a2 i then setbit b1 (2 * i + 1) else b1)
      (List.replicate 32 0)).length = 32) ∧
    (∀ k, bit ((List.range m).foldl
      (fun buf i =>
        let b1 := if bit a1 i then setbit buf (2 * i) else buf
        if bit a2 i then setbit b1 (2 * i + 1) else b1)
      (List.replicate 32 0)) k =
      ((decide (k % 2 = 0) && decide (k / 2 < m) && bit a1 (k / 2)) ||
       (decide (k % 2 = 1) && decide (k / 2 < m) && bit a2 (k / 2)))) := by
  intro m
  induction m with
  | zero =>
      intro _
      constructor
      · simp
      · intro k
        rw [List.range_zero, List.foldl_nil, bit_replicate_zero]
        simp
  | succ m ih =>
      intro hm
      obtain ⟨hlen, hbit⟩ := ih (by omega)
      rw [List.range_succ, List.foldl_append, List.foldl_cons, List.foldl_nil]
      constructor
      · simp only
        rw [csetbit_length, csetbit_length, hlen]
      · intro k
        simp only
        rw [bit_csetbit _ (bit a2 m) (2 * m + 1) k
          (by rw [csetbit_length, hlen]; omega)]
        rw [bit_csetbit _ (bit a1 m) (2 * m) k (by rw [hlen]; omega)]
        rw [hbit k]
        by_cases hk0 : k = 2 * m
        · subst hk0
          simp [show (2 * m) % 2 = 0 from by omega,
            show (2 * m) / 2 = m from by omega,
            show ¬ (2 * m = 2 * m + 1) from by omega]
        · by_cases hk1 : k = 2 * m + 1
          · subst hk1
            simp [show (2 * m + 1) % 2 = 1 from by omega,
              show (2 * m + 1) / 2 = m from by omega,
              show ¬ (2 * m + 1) % 2 = 0 from by omega]
          · rcases lt_trichotomy (k / 2) m with hlt | heq | hgt
            · simp [hk0, hk1, show k / 2 < m + 1 from by omega, hlt]
            · exfalso
              omega
            · simp [hk0, hk1, show ¬ k / 2 < m + 1 from by omega,
                show ¬ k / 2 < m from by omega]

theorem unPair_aux (addr : List Nat) : ∀ (m : Nat), m ≤ 128 →
    (((List.range m).foldl
      (fun bufs i =>
        let b1 := if bit addr (2 * i) then setbit bufs.1 i else bufs.1
        let b2 := if bit addr (2 * i + 1) then setbit bufs.2 i else bufs.2
        (b1, b2))
      (List.replicate 16 0, List.replicate 16 0)).1.length = 16) ∧
    (((List.range m).foldl
      (fun bufs i =>
        let b1 := if bit addr (2 * i) then setbit bufs.1 i else bufs.1
        let b2 := if bit addr (2 * i + 1) then setbit bufs.2 i else bufs.2
        (b1, b2))
      (List.replicate 16 0, List.replicate 16 0)).2.length = 16) ∧
    (∀ i, bit ((List.range m).foldl
      (fun bufs i =>
        let b1 := if bit addr (2 * i) then setbit bufs.1 i else bufs.1
        let b2 := if bit addr (2 * i + 1) then setbit bufs.2 i else bufs.2
        (b1, b2))
      (List.replicate 16 0, List.replicate 16 0)).1 i =
      (decide (i < m) && bit addr (2 * i))) ∧
    (∀ i, bit ((List.range m).foldl
      (fun bufs i =>
        let b1 := if bit addr (2 * i) then setbit bufs.1 i else bufs.1
        let b2 := if bit addr (2 * i + 1) then setbit bufs.2 i else bufs.2
        (b1, b2))
      (List.replicate 16 0, List.replicate 16 0)).2 i =
      (decide (i < m) && bit addr (2 * i + 1))) := by
  intro m
  induction m with
  | zero =>
      intro _
      refine ⟨by simp, by simp, ?_, ?_⟩ <;>
        · intro i
          rw [List.range_zero, List.foldl_nil]
          show bit (List.replicate 16 0) i = _
          rw [bit_replicate_zero]
          simp
  | succ m ih =>
      intro hm
      obtain ⟨hl1, hl2, hb1, hb2⟩ := ih (by omega)
      rw [List.range_succ, List.foldl_append, List.foldl_cons, List.foldl_nil]
      refine ⟨?_, ?_, ?_, ?_⟩
      · show (if bit addr (2 * m) then setbit ((List.range m).foldl _
          (List.replicate 16 0, List.replicate 16 0)).1 m else _).length = 16
        rw [csetbit_length, hl1]
      · show (if bit addr (2 * m + 1) then setbit ((List.range m).foldl _
          (List.replicate 16 0, List.replicate 16 0)).2 m else _).length = 16
        rw [csetbit_length, hl2]
      · intro i
        show bit (if bit addr (2 * m) then setbit ((List.range m).foldl _
          (List.replicate 16 0, List.replicate 16 0)).1 m else _) i = _
        rw [bit_csetbit _ _ m i (by rw [hl1]; omega)]
        rw [hb1 i]
        by_cases hi : i = m
        · subst hi
          simp
        · rcases lt_trichotomy i m with hlt | heq | hgt
          · simp [hi, hlt, show i < m + 1 from by omega]
          · exact absurd heq hi
          · simp [hi, show ¬ i < m + 1 from by omega, show ¬ i < m from by omega]
      · intro i
        show bit (if bit addr (2 * m + 1) then setbit ((List.range m).foldl _
          (List.replicate 16 0, List.replicate 16 0)).2 m else _) i = _
        rw [bit_csetbit _ _ m i (by rw [hl2]; omega)]
        rw [hb2 i]
        by_cases hi : i = m
        · subst hi
          simp
        · rcases lt_trichotomy i m with hlt | heq | hgt
          · simp [hi, hlt, show i < m + 1 from by omega]
          · exact absurd heq hi
          · simp [hi, show ¬ i < m + 1 from by omega, show ¬ i < m from by omega]

theorem unPair_bytes (addr : List Nat) : ∀ (m : Nat),
    (∀ x ∈ ((List.range m).foldl
      (fun bufs i =>
        let b1 := if bit addr (2 * i) then setbit bufs.1 i else bufs.1
        let b2 := if bit addr (2 * i + 1) then setbit bufs.2 i else bufs.2
        (b1, b2))
      (List.replicate 16 0, List.replicate 16 0)).1, x < 256) ∧
    (∀ x ∈ ((List.range m).foldl
      (fun bufs i =>
        let b1 := if bit addr (2 * i) then setbit bufs.1 i else bufs.1
        let b2 := if bit addr (2 * i + 1) then setbit bufs.2 i else bufs.2
        (b1, b2))
      (List.replicate 16 0, List.replicate 16 0)).2, x < 256) := by
  intro m
  induction m with
  | zero =>
      constructor <;>
        · intro x hx
          rw [List.range_zero, List.foldl_nil] at hx
          have := List.eq_of_mem_replicate hx
          omega
  | succ m ih =>
      obtain ⟨ih1, ih2⟩ := ih
      rw [List.range_succ, List.foldl_append, List.foldl_cons, List.foldl_nil]
      constructor
      · show ∀ x ∈ (if bit addr (2 * m) then setbit ((List.range m).foldl _
          (List.replicate 16 0, List.replicate 16 0)).1 m else _), x < 256
        exact csetbit_bytes _ _ _ ih1
      · show ∀ x ∈ (if bit addr (2 * m + 1) then setbit ((List.range m).foldl _
          (List.replicate 16 0, List.replicate 16 0)).2 m else _), x < 256
        exact csetbit_bytes _ _ _ ih2

theorem bit_append_pad (a : List Nat) (L : Nat) (hL : a.length = L) (i : Nat) :
    bit (a ++ List.replicate (16 - L) 0) i = (decide (i < L * 8) && bit a i) := by
  unfold bit
  by_cases h : i / 8 < L
  · have he : (a ++ List.replicate (16 - L) 0).getD (i / 8) 0 = a.getD (i / 8) 0 := by
      rw [List.getD_eq_getElem?_getD, List.getElem?_append_left (by omega),
        ← List.getD_eq_getElem?_getD]
    rw [he]
    simp [show i < L * 8 from by omega]
  · have he : (a ++ List.replicate (16 - L) 0).getD (i / 8) 0 = 0 := by
      rw [List.getD_eq_getElem?_getD, List.getElem?_append_right (by omega),
        List.getElem?_replicate]
      split <;> rfl
    rw [he, Nat.zero_testBit]
    simp [show ¬ i < L * 8 from by omega]

theorem eq_of_bits16 (u w : List Nat) (hu : u.length = 16) (hw : w.length = 16)
    (hub : ∀ x ∈ u, x < 256) (hwb : ∀ x ∈ w, x < 256)
    (h : ∀ i, i < 128 → bit u i = bit w i) : u = w := by
  have hbp : bitPath u (16 * 8) = bitPath w (16 * 8) :=
    bitPath_congr _ _ _ (fun i hi => h i (by omega))
  have h2 := take_eq_of_bitPath u w 16 (by omega) (by omega) hub hwb hbp
  rwa [List.take_of_length_le (by omega), List.take_of_length_le (by omega)] at h2

/-- C7: de-interleaving the buffer built by `add_pair`'s bit interleave
recovers the two addresses exactly (in their zero-padded 16-byte
canonical form), and the recovered depths are `⌈d/2⌉` and `⌊d/2⌋`,
summing to `d`. -/
theorem interleave_unpair_roundtrip (a1 a2 : List Nat) (L : Nat) (hL : L ≤ 16)
    (h1 : a1.length = L) (h2 : a2.length = L)
    (hb1 : ∀ x ∈ a1, x < 256) (hb2 : ∀ x ∈ a2, x < 256) :
    (unPair (interleave a1 a2 L) (2 * L)).1 = a1 ++ List.replicate (16 - L) 0 ∧
    (unPair (interleave a1 a2 L) (2 * L)).2 = a2 ++ List.replicate (16 - L) 0 ∧
    ∀ d, (unPairDepths d).1 = (d + 1) / 2 ∧ (unPairDepths d).2 = d / 2 ∧
      (unPairDepths d).1 + (unPairDepths d).2 = d := by
  have hrange : 2 * L * 8 / 2 = L * 8 := by omega
  obtain ⟨hul1, hul2, huc1, huc2⟩ := unPair_aux (interleave a1 a2 L) (L * 8) (by omega)
  obtain ⟨hil, hib⟩ := interleave_aux a1 a2 (L * 8) (by omega)
  obtain ⟨hpb1, hpb2⟩ := unPair_bytes (interleave a1 a2 L) (L * 8)
  have hinter : interleave a1 a2 L = (List.range (L * 8)).foldl
      (fun buf i =>
        let b1 := if bit a1 i then setbit buf (2 * i) else buf
        if bit a2 i then setbit b1 (2 * i + 1) else b1)
      (List.replicate 32 0) := rfl
  have hun : unPair (interleave a1 a2 L) (2 * L) = (List.range (L * 8)).foldl
      (fun bufs i =>
        let b1 := if bit (interleave a1 a2 L) (2 * i) then setbit bufs.1 i else bufs.1
        let b2 := if bit (interleave a1 a2 L) (2 * i + 1) then setbit bufs.2 i else bufs.2
        (b1, b2))
      (List.replicate 16 0, List.replicate 16 0) := by
    unfold unPair
    rw [hrange]
  refine ⟨?_, ?_, ?_⟩
  · rw [hun]
    apply eq_of_bits16 _ _ hul1 (by rw [List.length_append, List.length_replicate]; omega)
      hpb1 ?_ ?_
    · intro x hx
      rcases List.mem_append.mp hx with hx | hx
      · exact hb1 x hx
      · have := List.eq_of_mem_replicate hx
        omega
    · intro i hi
      rw [huc1 i, bit_append_pad a1 L h1 i]
      rw [hinter, hib (2 * i)]
      by_cases hi8 : i < L * 8
      · simp [hi8, show (2 * i) % 2 = 0 from by omega, show (2 * i) / 2 = i from by omega]
      · simp [hi8, show (2 * i) % 2 = 0 from by omega, show (2 * i) / 2 = i from by omega]
  · rw [hun]
    apply eq_of_bits16 _ _ hul2 (by rw [List.length_append, List.length_replicate]; omega)
      hpb2 ?_ ?_
    · intro x hx
      rcases List.mem_append.mp hx with hx | hx
      · exact hb2 x hx
      · have := List.eq_of_mem_replicate hx
        omega
    · intro i hi
      rw [huc2 i, bit_append_pad a2 L h2 i]
      rw [hinter, hib (2 * i + 1)]
      by_cases hi8 : i < L * 8
      · simp [hi8, show ¬ (2 * i + 1) % 2 = 0 from by omega,
          show (2 * i + 1) % 2 = 1 from by omega,
          show (2 * i + 1) / 2 = i from by omega]
      · simp [hi8, show ¬ (2 * i + 1) % 2 = 0 from by omega,
          show (2 * i + 1) % 2 = 1 from by omega,
          show (2 * i + 1) / 2 = i from by omega]
  · intro d
    unfold unPairDepths
    refine ⟨rfl, rfl, by omega⟩

/-- Witness for C7 at `1.2.3.4` / `5.6.7.8`. -/
theorem interleave_unpair_roundtrip_witness :
    (unPair (interleave [1, 2, 3, 4] [5, 6, 7, 8] 4) (2 * 4)).1 =
      [1, 2, 3, 4] ++ List.replicate (16 - 4) 0 ∧
    (unPair (interleave [1, 2, 3, 4] [5, 6, 7, 8] 4) (2 * 4)).2 =
      [5, 6, 7, 8] ++ List.replicate (16 - 4) 0 ∧
    ∀ d, (unPairDepths d).1 = (d + 1) / 2 ∧ (unPairDepths d).2 = d / 2 ∧
      (unPairDepths d).1 + (unPairDepths d).2 = d :=
  interleave_unpair_roundtrip [1, 2, 3, 4] [5, 6, 7, 8] 4 (by decide) (by decide)
    (by decide) (by decide) (by decide)

/-!
## Cache transparency (coupling the 4-slot cache with the no-cache run)
-/


theorem cacheLenOK_foldRemove (w : Nat) (ds : List (List Bool)) (c : List CacheEl)
    (h : CacheLenOK w c) :
    CacheLenOK w (ds.foldl (fun c2 p => cacheRemove c2 p) c) := by
  intro e he p hp
  obtain ⟨e0, h0, -, h1⟩ := foldRemove_slots ds c e he
  rcases h1 with h1 | h1
  · exact h e0 h0 p (by rw [← h1, hp])
  · rw [h1] at hp; exact absurd hp (by simp)

theorem pruneStepCoupled (w : Nat) (stC stN st1 : IPT) (r : Nat)
    (hroot : stC.root = stN.root) (hnodes : stC.nodes = stN.nodes)
    (h : pruneStep stC = .ok (st1, r)) :
    ∃ st1', pruneStep stN = .ok (st1', r) ∧
      st1.root = st1'.root ∧ st1.nodes = st1'.nodes ∧
      st1.maxnodes = stC.maxnodes ∧ st1'.maxnodes = stN.maxnodes ∧
      st1.addrbytes = stC.addrbytes ∧ st1'.addrbytes = stN.addrbytes ∧
      (CacheLenOK w stC.cache → CacheLenOK w st1.cache) := by
  unfold pruneStep at h ⊢
  rw [← hroot]
  by_cases ht : stC.root.term = true
  · rw [if_pos ht] at h ⊢
    injection h with h
    injection h with h1 h2
    subst h2
    refine ⟨stN, rfl, ?_⟩
    rw [← h1]
    exact ⟨hroot, hnodes, rfl, rfl, rfl, rfl, fun hq => hq⟩
  · rw [if_neg ht] at h ⊢
    cases hb : bestToPrune stC.root 0 with
    | error e => rw [hb] at h; exact absurd h (by simp)
    | ok pd =>
        rw [hb] at h
        simp only at h
        injection h with h
        injection h with h1 h2
        subst h2
        simp only [hb]
        refine ⟨_, rfl, ?_⟩
        rw [← h1]
        refine ⟨rfl, by simp [hnodes], rfl, rfl, rfl, rfl, ?_⟩
        intro hq
        exact cacheLenOK_foldRemove w _ _ hq

theorem pruneLoopCoupled (w : Nat) (f : Nat) : ∀ (stC stN st1 : IPT),
    stC.root = stN.root → stC.nodes = stN.nodes → stC.maxnodes = stN.maxnodes →
    pruneLoop f stC = .ok st1 →
    ∃ st1', pruneLoop f stN = .ok st1' ∧
      st1.root = st1'.root ∧ st1.nodes = st1'.nodes ∧
      st1.maxnodes = stC.maxnodes ∧ st1'.maxnodes = stN.maxnodes ∧
      st1.addrbytes = stC.addrbytes ∧ st1'.addrbytes = stN.addrbytes ∧
      (CacheLenOK w stC.cache → CacheLenOK w st1.cache) := by
  induction f with
  | zero =>
      intro stC stN st1 hroot hnodes hmax h
      simp only [pruneLoop] at h
      injection h with h; subst h
      exact ⟨stN, rfl, hroot, hnodes, rfl, rfl, rfl, rfl, fun hq => hq⟩
  | succ f ih =>
      intro stC stN st1 hroot hnodes hmax h
      simp only [pruneLoop] at h ⊢
      by_cases hg : stC.maxnodes * 9 / 10 < stC.nodes
      · rw [if_pos hg] at h
        rw [if_pos (show stN.maxnodes * 9 / 10 < stN.nodes by
          rw [← hmax, ← hnodes]; exact hg)]
        cases hp : pruneStep stC with
        | error e => rw [hp] at h; exact absurd h (by simp)
        | ok pr =>
            obtain ⟨sa, r⟩ := pr
            rw [hp] at h
            simp only at h
            obtain ⟨sa', hp', e1, e2, e3, e4, e5, e6, e7⟩ :=
              pruneStepCoupled w stC stN sa r hroot hnodes hp
            rw [hp']
            simp only
            by_cases hr : r = 0
            · rw [if_pos hr] at h
              rw [if_pos hr]
              injection h with h; subst h
              exact ⟨sa', rfl, e1, e2, e3, e4, e5, e6, e7⟩
            · rw [if_neg hr] at h
              rw [if_neg hr]
              obtain ⟨st1', hl', f1, f2, f3, f4, f5, f6, f7⟩ :=
                ih sa sa' st1 e1 e2 (by rw [e3, e4, hmax]) h
              exact ⟨st1', hl', f1, f2, by rw [f3, e3], by rw [f4, e4],
                by rw [f5, e5], by rw [f6, e6], fun hq => f7 (e7 hq)⟩
      · rw [if_neg hg] at h
        rw [if_neg (show ¬ stN.maxnodes * 9 / 10 < stN.nodes by
          rw [← hmax, ← hnodes]; exact hg)]
        injection h with h; subst h
        exact ⟨stN, rfl, hroot, hnodes, rfl, rfl, rfl, rfl, fun hq => hq⟩

theorem pruneIfGreaterCoupled (w : Nat) (stC stN st1 : IPT) (la lb : Nat)
    (hroot : stC.root = stN.root) (hnodes : stC.nodes = stN.nodes)
    (hmax : stC.maxnodes = stN.maxnodes)
    (h : pruneIfGreaterOp stC la = .ok st1) :
    ∃ st1', pruneIfGreaterOp stN lb = .ok st1' ∧
      st1.root = st1'.root ∧ st1.nodes = st1'.nodes ∧
      st1.maxnodes = stC.maxnodes ∧ st1'.maxnodes = stN.maxnodes ∧
      st1.addrbytes = stC.addrbytes ∧ st1'.addrbytes = stN.addrbytes ∧
      (CacheLenOK w stC.cache → CacheLenOK w st1.cache) := by
  unfold pruneIfGreaterOp at h ⊢
  by_cases hg : stC.maxnodes ≤ stC.nodes
  · rw [if_pos hg] at h
    rw [if_pos (show stN.maxnodes ≤ stN.nodes by rw [← hmax, ← hnodes]; exact hg)]
    rw [← hnodes]
    exact pruneLoopCoupled w (stC.nodes + 1) stC stN st1 hroot hnodes hmax h
  · rw [if_neg hg] at h
    rw [if_neg (show ¬ stN.maxnodes ≤ stN.nodes by rw [← hmax, ← hnodes]; exact hg)]
    injection h with h; subst h
    exact ⟨stN, rfl, hroot, hnodes, rfl, rfl, rfl, rfl, fun hq => hq⟩

theorem addCoupled (w : Nat) (stC stN : IPT) (a : List Nat) (l v : Nat) (st2 : IPT)
    (hco : Coupled w stC stN)
    (hb : ∀ x ∈ a, x < 256)
    (hl : min l stC.addrbytes ≤ a.length)
    (hw : (if l > stC.addrbytes then stC.addrbytes else l) * 8 = w)
    (h : addOp stC a l v = .ok st2) :
    ∃ st2', addNC stN a l v = .ok st2' ∧ Coupled w st2 st2' ∧
      st2.addrbytes = stC.addrbytes := by
  obtain ⟨hroot, hnodes, hmax, hab, hcount, hcwf, hclen⟩ := hco
  obtain ⟨-, hcount2, hcwf2, -, hab2, -⟩ := addOp_ok stC a l v st2 hb hl hcount hcwf h
  unfold addOp at h
  unfold addNC
  cases hpg : pruneIfGreaterOp stC stC.maxnodes with
  | error e => rw [hpg] at h; exact absurd h (by simp)
  | ok st1 =>
      rw [hpg] at h
      simp only at h
      obtain ⟨st1', hpg', e1, e2, e3, e4, e5, e6, e7⟩ :=
        pruneIfGreaterCoupled w stC stN st1 stC.maxnodes stN.maxnodes hroot hnodes hmax hpg
      rw [hpg']
      simp only
      have habs : st1'.addrbytes = st1.addrbytes := by rw [e6, e5, hab]
      rw [habs]
      obtain ⟨-, -, -, -, hcwf1, -⟩ := pruneIfGreater_ok stC stC.maxnodes st1 hpg
      have hcwf1b : CacheWF st1.addrbytes st1.root st1.cache := by
        rw [e5]; exact hcwf1 hcwf
      have hclen1 : CacheLenOK w st1.cache := e7 hclen
      have hw1 : (if l > st1.addrbytes then st1.addrbytes else l) * 8 = w := by
        rw [e5]; exact hw
      cases hcs : cacheSearch st1.cache a
          (if l > st1.addrbytes then st1.addrbytes else l) with
      | some e =>
          rw [hcs] at h
          simp only at h
          injection h with h; subst h
          obtain ⟨hmem, hsome, htake⟩ := cacheSearch_some _ _ _ _ hcs
          obtain ⟨p, hp⟩ := Option.isSome_iff_exists.mp hsome
          obtain ⟨hnd1, hby1, hpt1⟩ := hcwf1b
          obtain ⟨hbp, hfind⟩ := hpt1 e hmem p hp
          have hgetD : e.ptr.getD [] = p := by rw [hp]; rfl
          have hplen : p.length = w := hclen1 e hmem p hp
          have hpath : p = bitPath a
              ((if l > st1.addrbytes then st1.addrbytes else l) * 8) := by
            rw [hbp, hplen, ← hw1]
            apply bitPath_congr
            intro i hi
            rw [← bit_take e.addr (if l > st1.addrbytes then st1.addrbytes else l) i hi,
              htake, bit_take a _ i hi]
          have hwalk := walkAdd_exists_eq_incrAt
            (bitPath a ((if l > st1.addrbytes then st1.addrbytes else l) * 8))
            st1.root v (by rw [← hpath]; exact hfind)
          refine ⟨_, rfl, ?_, ?_⟩
          · rw [← e1, hwalk]
            refine ⟨?_, ?_, ?_, ?_, hcount2, hcwf2, ?_⟩
            · show incrAt st1.root (e.ptr.getD []) v =
                (incrAt st1.root (bitPath a
                  ((if l > st1.addrbytes then st1.addrbytes else l) * 8)) v, 0).1
              rw [hgetD, hpath]
            · show st1.nodes = st1'.nodes + (incrAt st1.root (bitPath a
                ((if l > st1.addrbytes then st1.addrbytes else l) * 8)) v, 0).2
              rw [e2]
              exact (Nat.add_zero st1'.nodes).symm
            · show st1.maxnodes = st1'.maxnodes
              rw [e3, e4, hmax]
            · rfl
            · exact hclen1
          · exact hab2
      | none =>
          rw [hcs] at h
          simp only at h
          injection h with h; subst h
          refine ⟨_, rfl, ?_, ?_⟩
          · refine ⟨?_, ?_, ?_, ?_, hcount2, hcwf2, ?_⟩
            · show (walkAdd st1.root (bitPath a
                ((if l > st1.addrbytes then st1.addrbytes else l) * 8)) v).1 =
                (walkAdd st1'.root (bitPath a
                ((if l > st1.addrbytes then st1.addrbytes else l) * 8)) v).1
              rw [← e1]
            · show st1.nodes + (walkAdd st1.root (bitPath a
                ((if l > st1.addrbytes then st1.addrbytes else l) * 8)) v).2 =
                st1'.nodes + (walkAdd st1'.root (bitPath a
                ((if l > st1.addrbytes then st1.addrbytes else l) * 8)) v).2
              rw [← e1, e2]
            · show st1.maxnodes = st1'.maxnodes
              rw [e3, e4, hmax]
            · rfl
            · intro ex hex q hq
              simp only [cacheReplace] at hex
              rcases List.mem_or_eq_of_mem_set hex with hex | hex
              · exact hclen1 ex hex q hq
              · subst hex
                simp only at hq
                injection hq with hq
                subst hq
                rw [bitPath_length]
                exact hw1
          · exact hab2


theorem opCoupled (w : Nat) (stC stN st2 : IPT) (op : Op)
    (hco : Coupled w stC stN)
    (hv : ValidOp stC.addrbytes op)
    (hwop : OpLenBits w stC.addrbytes op)
    (h : runOp stC op = .ok st2) :
    ∃ st2', runOpNC stN op = .ok st2' ∧ Coupled w st2 st2' ∧
      st2.addrbytes = stC.addrbytes := by
  obtain ⟨hroot, hnodes, hmax, hab, hcount, hcwf, hclen⟩ := hco
  cases op with
  | add a l v =>
      obtain ⟨hb, hl⟩ := hv
      exact addCoupled w stC stN a l v st2
        ⟨hroot, hnodes, hmax, hab, hcount, hcwf, hclen⟩ hb hl hwop h
  | prune =>
      simp only [runOp] at h
      simp only [runOpNC]
      cases hp : pruneStep stC with
      | error e => rw [hp] at h; exact absurd h (by simp [Except.map])
      | ok pr =>
          obtain ⟨sa, r⟩ := pr
          rw [hp] at h
          simp only [Except.map] at h
          injection h with h; subst h
          obtain ⟨sa', hp', e1, e2, e3, e4, e5, e6, e7⟩ :=
            pruneStepCoupled w stC stN sa r hroot hnodes hp
          rw [hp']
          obtain ⟨-, -, -, hcnt, hcwfp, -, -⟩ := pruneStep_ok stC sa r hp
          refine ⟨sa', rfl, ⟨e1, e2, by rw [e3, e4, hmax],
            by rw [e5, e6, hab], hcnt hcount, ?_, e7 hclen⟩, e5⟩
          rw [e5]
          exact hcwfp hcwf
  | pruneIfGreater L =>
      simp only [runOp] at h
      simp only [runOpNC]
      obtain ⟨sa', hp', e1, e2, e3, e4, e5, e6, e7⟩ :=
        pruneIfGreaterCoupled w stC stN st2 L L hroot hnodes hmax h
      obtain ⟨-, -, -, hcnt, hcwfp, -⟩ := pruneIfGreater_ok stC L st2 h
      refine ⟨sa', hp', ⟨e1, e2, by rw [e3, e4, hmax],
        by rw [e5, e6, hab], hcnt hcount, ?_, e7 hclen⟩, e5⟩
      rw [e5]
      exact hcwfp hcwf

theorem runCoupled (w : Nat) (ops : List Op) : ∀ (stC stN st2 : IPT),
    (∀ op ∈ ops, ValidOp stC.addrbytes op) →
    (∀ op ∈ ops, OpLenBits w stC.addrbytes op) →
    Coupled w stC stN →
    run stC ops = .ok st2 →
    ∃ st2', runNC stN ops = .ok st2' ∧ Coupled w st2 st2' := by
  induction ops with
  | nil =>
      intro stC stN st2 hv hwop hco h
      simp only [run] at h
      injection h with h; subst h
      exact ⟨stN, rfl, hco⟩
  | cons op ops ih =>
      intro stC stN st2 hv hwop hco h
      simp only [run] at h
      cases h1 : runOp stC op with
      | error e => rw [h1] at h; exact absurd h (by simp)
      | ok st1 =>
          rw [h1] at h
          simp only at h
          obtain ⟨st1', h1', hco1, habst⟩ :=
            opCoupled w stC stN st1 op hco (hv op (List.mem_cons_self _ _))
              (hwop op (List.mem_cons_self _ _)) h1
          obtain ⟨st2', h2', hco2⟩ := ih st1 st1' st2
            (fun o ho => by rw [habst]; exact hv o (List.mem_cons_of_mem _ ho))
            (fun o ho => by rw [habst]; exact hwop o (List.mem_cons_of_mem _ ho))
            hco1 h
          refine ⟨st2', ?_, hco2⟩
          simp only [runNC]
          rw [h1']
          exact h2'

theorem iptInit_coupled (w ab maxn : Nat) :
    Coupled w (iptInit ab maxn) (iptInit ab maxn) := by
  refine ⟨rfl, rfl, rfl, rfl, iptInit_count ab maxn, iptInit_cwf ab maxn, ?_⟩
  intro e he p hp
  simp only [iptInit] at he
  have := List.eq_of_mem_replicate he
  subst this
  exact absurd hp (by simp)

/-- C3: amended cache transparency.  For call sequences whose `add`s all
use one address length (and valid byte buffers), the 4-slot
insertion-path cache is transparent: whenever the cached run succeeds,
the no-cache run succeeds and produces the identical tree (hence
identical per-node counts and histogram) and node count. -/
theorem cache_transparency_fixed_length (ab maxn L : Nat) (ops : List Op)
    (hv : ∀ op ∈ ops, ValidOp ab op)
    (hlen : ∀ op ∈ ops, OpLen L op)
    (hok : isOkB (run (iptInit ab maxn) ops) = true) :
    rootOf (runNC (iptInit ab maxn) ops) = rootOf (run (iptInit ab maxn) ops) ∧
    nodesOf (runNC (iptInit ab maxn) ops) = nodesOf (run (iptInit ab maxn) ops) := by
  cases hr : run (iptInit ab maxn) ops with
  | error e => rw [hr] at hok; exact absurd hok (by simp [isOkB])
  | ok st =>
      obtain ⟨st', h', c1, c2, -⟩ :=
        runCoupled ((if L > ab then ab else L) * 8) ops
          (iptInit ab maxn) (iptInit ab maxn) st
          (fun op ho => hv op ho)
          (fun op ho => by
            cases op with
            | add a l v =>
                have : l = L := hlen _ ho
                subst this
                rfl
            | prune => exact trivial
            | pruneIfGreater l => exact trivial)
          (iptInit_coupled _ ab maxn) hr
      rw [h']
      exact ⟨by simp [rootOf, c1], by simp [nodesOf, c2]⟩

/-- Witness for C3 at two length-4 adds of `1.2.3.4`. -/
theorem cache_transparency_fixed_length_witness :
    rootOf (runNC (iptInit 4 100)
        [Op.add [1, 2, 3, 4] 4 5, Op.add [1, 2, 3, 4] 4 7]) =
      rootOf (run (iptInit 4 100)
        [Op.add [1, 2, 3, 4] 4 5, Op.add [1, 2, 3, 4] 4 7]) ∧
    nodesOf (runNC (iptInit 4 100)
        [Op.add [1, 2, 3, 4] 4 5, Op.add [1, 2, 3, 4] 4 7]) =
      nodesOf (run (iptInit 4 100)
        [Op.add [1, 2, 3, 4] 4 5, Op.add [1, 2, 3, 4] 4 7]) :=
  cache_transparency_fixed_length 4 100 4 _
    (by
      intro op hop
      rcases List.mem_cons.mp hop with rfl | hop
      · exact ⟨by decide, by decide⟩
      rcases List.mem_cons.mp hop with rfl | hop
      · exact ⟨by decide, by decide⟩
      · simp at hop)
    (by
      intro op hop
      rcases List.mem_cons.mp hop with rfl | hop
      · rfl
      rcases List.mem_cons.mp hop with rfl | hop
      · rfl
      · simp at hop)
    (by decide)

set_option maxRecDepth 10000 in
/-- C3 counterexample for the unrestricted claim: with mixed address
lengths the cache is not transparent.  A 16-byte add of
`01:00:...:00` caches the depth-128 leaf under its full key; a
following 4-byte add of `1.0.0.0` memcmp-matches the slot's first 4
bytes, so the cached run bumps the depth-128 leaf (to 8) where the
no-cache run bumps the depth-32 node (leaving the leaf at 7). -/
theorem cache_mixed_length_divergence_cex :
    nodesumAtOf (bitPath (1 :: List.replicate 15 0) 128)
      (run (iptInit 16 1000)
        [Op.add (1 :: List.replicate 15 0) 16 7, Op.add [1, 0, 0, 0] 4 1]) =
      some 8 ∧
    nodesumAtOf (bitPath (1 :: List.replicate 15 0) 128)
      (runNC (iptInit 16 1000)
        [Op.add (1 :: List.replicate 15 0) 16 7, Op.add [1, 0, 0, 0] 4 1]) =
      some 7 := by
  decide
